/-
Verification of the ETDump serialization module, sdk/etdump/serialize.py.

The module converts typed dump records between an in-memory tree, a JSON
text produced by json.dumps with an encoder for dataclasses, and a binary
flatbuffer produced by an external compiler invoked on files staged in a
temporary directory.  The Python standard-library JSON codec and the
dataclass encoder/decoder are not part of the sources; they are modelled
here from the specification: trees of named fields whose values are
scalars, nested records, sequences and tagged unions, rendered to JSON
text with stable field order and ASCII escaping, and reconstructed from
parsed JSON guided by a schema descriptor.
-/
import Mathlib

namespace EtdumpVerify

/- ### Low-level character helpers for the JSON text layer -/

def isWsC (c : Char) : Bool := c.toNat = 32 || c.toNat = 10 || c.toNat = 9 || c.toNat = 13

def isDigitC (c : Char) : Bool := 48 ≤ c.toNat && c.toNat ≤ 57

def digitChar (d : Nat) : Char := Char.ofNat (48 + d)

def digitVal (c : Char) : Nat := c.toNat - 48

def hexDigitChar (d : Nat) : Char := Char.ofNat (if d < 10 then 48 + d else 87 + d)

def hexVal (c : Char) : Option Nat :=
  if 48 ≤ c.toNat ∧ c.toNat ≤ 57 then some (c.toNat - 48)
  else if 97 ≤ c.toNat ∧ c.toNat ≤ 102 then some (c.toNat - 87)
  else none

theorem toNat_ofNat_valid (n : Nat) (h : n.isValidChar) : (Char.ofNat n).toNat = n := by
  simp only [Char.ofNat]
  rw [dif_pos h]
  rfl

theorem char_toNat_valid (c : Char) : c.toNat.isValidChar := c.valid

theorem ofNat_toNat_eq (c : Char) : Char.ofNat c.toNat = c := Char.ofNat_toNat c

/- ### The JSON document tree manipulated by the codec -/

mutual

inductive Jval where
  | jnum : Int → Jval
  | jbool : Bool → Jval
  | jnull : Jval
  | jstr : List Char → Jval
  | jarr : JElems → Jval
  | jobj : JMembers → Jval

inductive JElems where
  | nil : JElems
  | cons : Jval → JElems → JElems

inductive JMembers where
  | nil : JMembers
  | cons : String → Jval → JMembers → JMembers

end

/- ### Rendering: json.dumps with indent=4 (pretty) or fully minified.
The default ensure_ascii behaviour escapes every character outside the
printable ASCII range as a backslash-u sequence, using a surrogate pair
for characters beyond the basic multilingual plane. -/

def natCharsAux (n : Nat) (acc : List Char) : List Char :=
  if n < 10 then digitChar n :: acc else natCharsAux (n / 10) (digitChar (n % 10) :: acc)
termination_by n
decreasing_by exact Nat.div_lt_self (by omega) (by omega)

def natChars (n : Nat) : List Char := natCharsAux n []

def intChars (i : Int) : List Char :=
  if i < 0 then '-' :: natChars (-i).toNat else natChars i.toNat

def hex4 (n : Nat) : List Char :=
  [hexDigitChar (n / 4096 % 16), hexDigitChar (n / 256 % 16),
   hexDigitChar (n / 16 % 16), hexDigitChar (n % 16)]

def escapeChar (c : Char) : List Char :=
  if c = '"' then ['\\', '"']
  else if c = '\\' then ['\\', '\\']
  else if 32 ≤ c.toNat ∧ c.toNat ≤ 126 then [c]
  else if c.toNat < 65536 then '\\' :: 'u' :: hex4 c.toNat
  else '\\' :: 'u' :: hex4 (55296 + (c.toNat - 65536) / 1024) ++
       '\\' :: 'u' :: hex4 (56320 + (c.toNat - 65536) % 1024)

def escapeList : List Char → List Char
  | [] => []
  | c :: r => escapeChar c ++ escapeList r

def renderString (s : List Char) : List Char := '"' :: (escapeList s ++ ['"'])

def spacesChars (n : Nat) : List Char := List.replicate n ' '

def nlIndent (p : Bool) (lvl : Nat) : List Char :=
  if p then '\n' :: spacesChars (4 * lvl) else []

def colonSep (p : Bool) : List Char := if p then [':', ' '] else [':']

mutual

def renderV (p : Bool) (lvl : Nat) : Jval → List Char
  | .jnum i => intChars i
  | .jbool b => if b then ['t', 'r', 'u', 'e'] else ['f', 'a', 'l', 's', 'e']
  | .jnull => ['n', 'u', 'l', 'l']
  | .jstr s => renderString s
  | .jarr .nil => ['[', ']']
  | .jarr (.cons v es) =>
      '[' :: (nlIndent p (lvl + 1) ++ renderV p (lvl + 1) v ++
              renderElems p (lvl + 1) es ++ nlIndent p lvl ++ [']'])
  | .jobj .nil => ['\x7b', '\x7d']
  | .jobj (.cons k v ms) =>
      '\x7b' :: (nlIndent p (lvl + 1) ++ renderString k.data ++ colonSep p ++
                 renderV p (lvl + 1) v ++ renderMembers p (lvl + 1) ms ++
                 nlIndent p lvl ++ ['\x7d'])

def renderElems (p : Bool) (lvl : Nat) : JElems → List Char
  | .nil => []
  | .cons v es => ',' :: (nlIndent p lvl ++ renderV p lvl v ++ renderElems p lvl es)

def renderMembers (p : Bool) (lvl : Nat) : JMembers → List Char
  | .nil => []
  | .cons k v ms =>
      ',' :: (nlIndent p lvl ++ renderString k.data ++ colonSep p ++
              renderV p lvl v ++ renderMembers p lvl ms)

end

mutual

def sizeV : Jval → Nat
  | .jnum _ => 1
  | .jbool _ => 1
  | .jnull => 1
  | .jstr _ => 1
  | .jarr es => 1 + sizeE es
  | .jobj ms => 1 + sizeM ms

def sizeE : JElems → Nat
  | .nil => 1
  | .cons v es => 1 + sizeV v + sizeE es

def sizeM : JMembers → Nat
  | .nil => 1
  | .cons _ v ms => 1 + sizeV v + sizeM ms

end

/- ### Parsing: the fragment of json.loads exercised by this codec -/

def skipWs : List Char → List Char
  | [] => []
  | c :: r => if isWsC c then skipWs r else c :: r

def expectChars : List Char → List Char → Option (List Char)
  | [], s => some s
  | e :: er, c :: cr => if c = e then expectChars er cr else none
  | _ :: _, [] => none

def mapCons (c : Char) : Option (List Char × List Char) → Option (List Char × List Char)
  | some (s, r) => some (c :: s, r)
  | none => none

def emptyNext (c : Char) (s : List Char) : Bool :=
  match s with
  | [] => false
  | d :: _ => d = c

def hex4Val (a b c d : Char) : Option Nat :=
  match hexVal a, hexVal b, hexVal c, hexVal d with
  | some va, some vb, some vc, some vd => some (va * 4096 + vb * 256 + vc * 16 + vd)
  | _, _, _, _ => none

mutual

def parseStringBody : List Char → Option (List Char × List Char)
  | [] => none
  | c :: r =>
    if c = '"' then some ([], r)
    else if c = '\\' then parseEscape r
    else mapCons c (parseStringBody r)

def parseEscape : List Char → Option (List Char × List Char)
  | [] => none
  | e :: r2 =>
    if e = '"' then mapCons '"' (parseStringBody r2)
    else if e = '\\' then mapCons '\\' (parseStringBody r2)
    else if e = 'u' then parseHexEsc r2
    else none

def parseHexEsc : List Char → Option (List Char × List Char)
  | a :: b :: c2 :: d2 :: r3 =>
    match hex4Val a b c2 d2 with
    | none => none
    | some h =>
      if 55296 ≤ h ∧ h < 56320 then parseLowSurrogate h r3
      else if 56320 ≤ h ∧ h < 57344 then none
      else mapCons (Char.ofNat h) (parseStringBody r3)
  | _ => none

def parseLowSurrogate : Nat → List Char → Option (List Char × List Char)
  | h, e2 :: u2 :: a2 :: b2 :: c3 :: d3 :: r4 =>
    if e2 = '\\' ∧ u2 = 'u' then
      match hex4Val a2 b2 c3 d3 with
      | none => none
      | some l =>
        if 56320 ≤ l ∧ l < 57344 then
          mapCons (Char.ofNat (65536 + (h - 55296) * 1024 + (l - 56320)))
            (parseStringBody r4)
        else none
    else none
  | _, _ => none

end

def parseNat (s : List Char) : Option (Nat × List Char) :=
  let ds := s.takeWhile isDigitC
  if ds.isEmpty then none
  else some (ds.foldl (fun a c => a * 10 + digitVal c) 0, s.dropWhile isDigitC)

mutual

def parseV : Nat → List Char → Option (Jval × List Char)
  | 0, _ => none
  | fuel + 1, s =>
    match skipWs s with
    | [] => none
    | c :: r =>
      if c = 'n' then (expectChars ['u', 'l', 'l'] r).map (fun r2 => (Jval.jnull, r2))
      else if c = 't' then (expectChars ['r', 'u', 'e'] r).map (fun r2 => (Jval.jbool true, r2))
      else if c = 'f' then (expectChars ['a', 'l', 's', 'e'] r).map (fun r2 => (Jval.jbool false, r2))
      else if c = '"' then (parseStringBody r).map (fun q => (Jval.jstr q.1, q.2))
      else if c = '[' then
        if emptyNext ']' (skipWs r) then some (Jval.jarr JElems.nil, (skipWs r).tail)
        else
          match parseV fuel r with
          | none => none
          | some (v, r2) =>
            match parseElems fuel r2 with
            | none => none
            | some (es, r3) => some (Jval.jarr (JElems.cons v es), r3)
      else if c = '\x7b' then
        if emptyNext '\x7d' (skipWs r) then some (Jval.jobj JMembers.nil, (skipWs r).tail)
        else
          match parseMember fuel r with
          | none => none
          | some (kv, r2) =>
            match parseMembers fuel r2 with
            | none => none
            | some (ms, r3) => some (Jval.jobj (JMembers.cons kv.1 kv.2 ms), r3)
      else if c = '-' then (parseNat r).map (fun q => (Jval.jnum (-(q.1 : Int)), q.2))
      else if isDigitC c then (parseNat (c :: r)).map (fun q => (Jval.jnum (q.1 : Int), q.2))
      else none

def parseElems : Nat → List Char → Option (JElems × List Char)
  | 0, _ => none
  | fuel + 1, s =>
    match skipWs s with
    | [] => none
    | c :: r =>
      if c = ']' then some (JElems.nil, r)
      else if c = ',' then
        match parseV fuel r with
        | none => none
        | some (v, r2) =>
          match parseElems fuel r2 with
          | none => none
          | some (es, r3) => some (JElems.cons v es, r3)
      else none

def parseMember : Nat → List Char → Option ((String × Jval) × List Char)
  | 0, _ => none
  | fuel + 1, s =>
    match skipWs s with
    | [] => none
    | c :: r =>
      if c = '"' then
        match parseStringBody r with
        | none => none
        | some (ks, r2) =>
          match skipWs r2 with
          | [] => none
          | c2 :: r3 =>
            if c2 = ':' then
              match parseV fuel r3 with
              | none => none
              | some (v, r4) => some ((String.mk ks, v), r4)
            else none
      else none

def parseMembers : Nat → List Char → Option (JMembers × List Char)
  | 0, _ => none
  | fuel + 1, s =>
    match skipWs s with
    | [] => none
    | c :: r =>
      if c = '\x7d' then some (JMembers.nil, r)
      else if c = ',' then
        match parseMember fuel r with
        | none => none
        | some (kv, r2) =>
          match parseMembers fuel r2 with
          | none => none
          | some (ms, r3) => some (JMembers.cons kv.1 kv.2 ms, r3)
      else none

end

def jsonLoads (s : List Char) : Option Jval :=
  match parseV (2 * s.length + 2) s with
  | some (j, rest) => if (skipWs rest).isEmpty then some j else none
  | none => none

/- ### Whitespace lemmas -/

def delimOk : List Char → Bool
  | [] => true
  | c :: _ => !isDigitC c

theorem skipWs_cons_not (c : Char) (r : List Char) (h : isWsC c = false) :
    skipWs (c :: r) = c :: r := by
  simp [skipWs, h]

theorem skipWs_append_ws (w s : List Char) (h : ∀ c ∈ w, isWsC c = true) :
    skipWs (w ++ s) = skipWs s := by
  induction w with
  | nil => rfl
  | cons a w ih =>
      have ha : isWsC a = true := h a (by simp)
      simp only [List.cons_append, skipWs, ha, if_pos]
      exact ih (fun c hc => h c (by simp [hc]))

theorem nlIndent_ws (p : Bool) (lvl : Nat) : ∀ c ∈ nlIndent p lvl, isWsC c = true := by
  intro c hc
  cases p with
  | false => simp [nlIndent] at hc
  | true =>
      simp only [nlIndent, if_pos, spacesChars] at hc
      rcases List.mem_cons.mp hc with h | h
      · subst h; rfl
      · rw [List.eq_of_mem_replicate h]; rfl

theorem skipWs_nlIndent (p : Bool) (lvl : Nat) (s : List Char) :
    skipWs (nlIndent p lvl ++ s) = skipWs s :=
  skipWs_append_ws _ _ (nlIndent_ws p lvl)

/- ### Decimal digits -/

theorem digitChar_toNat (d : Nat) (h : d < 10) : (digitChar d).toNat = 48 + d := by
  have : (48 + d).isValidChar := Or.inl (by omega)
  simpa [digitChar] using toNat_ofNat_valid (48 + d) this

theorem isDigitC_digitChar (d : Nat) (h : d < 10) : isDigitC (digitChar d) = true := by
  simp [isDigitC, digitChar_toNat d h]
  omega

theorem digitVal_digitChar (d : Nat) (h : d < 10) : digitVal (digitChar d) = d := by
  simp [digitVal, digitChar_toNat d h]

theorem not_ws_of_digit (c : Char) (h : isDigitC c = true) : isWsC c = false := by
  simp only [isDigitC, Bool.and_eq_true, decide_eq_true_eq] at h
  simp only [isWsC]
  simp only [Bool.or_eq_false_iff, decide_eq_false_iff_not]
  omega

theorem ne_of_digit (c d : Char) (h : isDigitC c = true) (hd : isDigitC d = false) : c ≠ d := by
  intro he
  rw [he, hd] at h
  exact Bool.false_ne_true h

theorem natCharsAux_append (n : Nat) (acc : List Char) :
    natCharsAux n acc = natCharsAux n [] ++ acc := by
  induction n using Nat.strong_induction_on generalizing acc with
  | _ n ih =>
      by_cases h : n < 10
      · rw [natCharsAux, if_pos h, natCharsAux, if_pos h]
        simp
      · have hdiv : n / 10 < n := Nat.div_lt_self (by omega) (by omega)
        rw [natCharsAux, if_neg h]
        conv_rhs => rw [natCharsAux, if_neg h]
        rw [ih (n / 10) hdiv (digitChar (n % 10) :: acc),
            ih (n / 10) hdiv [digitChar (n % 10)]]
        simp

theorem natChars_struct (n : Nat) :
    natChars n = if n < 10 then [digitChar n] else natChars (n / 10) ++ [digitChar (n % 10)] := by
  by_cases h : n < 10
  · rw [natChars, natCharsAux]
    simp [h]
  · rw [natChars, natCharsAux, if_neg h, natCharsAux_append]
    simp [h, natChars]

theorem natChars_ne_nil (n : Nat) : natChars n ≠ [] := by
  rw [natChars_struct]
  by_cases h : n < 10 <;> simp [h]

theorem natChars_all_digits (n : Nat) : ∀ c ∈ natChars n, isDigitC c = true := by
  induction n using Nat.strong_induction_on with
  | _ n ih =>
      intro c hc
      rw [natChars_struct] at hc
      by_cases h : n < 10
      · rw [if_pos h] at hc
        simp only [List.mem_singleton] at hc
        subst hc
        exact isDigitC_digitChar n h
      · rw [if_neg h] at hc
        rcases List.mem_append.mp hc with h2 | h2
        · exact ih (n / 10) (Nat.div_lt_self (by omega) (by omega)) c h2
        · simp only [List.mem_singleton] at h2
          subst h2
          exact isDigitC_digitChar _ (Nat.mod_lt _ (by omega))

theorem foldl_natChars (n : Nat) :
    (natChars n).foldl (fun a c => a * 10 + digitVal c) 0 = n := by
  induction n using Nat.strong_induction_on with
  | _ n ih =>
      rw [natChars_struct]
      by_cases h : n < 10
      · simp [h, digitVal_digitChar n h]
      · rw [if_neg h, List.foldl_append]
        rw [ih (n / 10) (Nat.div_lt_self (by omega) (by omega))]
        simp only [List.foldl_cons, List.foldl_nil]
        rw [digitVal_digitChar (n % 10) (Nat.mod_lt _ (by omega))]
        omega

theorem takeWhile_digits (l rest : List Char) (hl : ∀ c ∈ l, isDigitC c = true)
    (hr : delimOk rest = true) :
    (l ++ rest).takeWhile isDigitC = l ∧ (l ++ rest).dropWhile isDigitC = rest := by
  induction l with
  | nil =>
      cases rest with
      | nil => simp
      | cons c r =>
          simp only [delimOk, Bool.not_eq_true'] at hr
          simp [List.takeWhile, List.dropWhile, hr]
  | cons a l ih =>
      have ha : isDigitC a = true := hl a (by simp)
      have := ih (fun c hc => hl c (by simp [hc]))
      simp [List.takeWhile, List.dropWhile, ha, this.1, this.2]

theorem parseNat_natChars (n : Nat) (rest : List Char) (hr : delimOk rest = true) :
    parseNat (natChars n ++ rest) = some (n, rest) := by
  have h := takeWhile_digits (natChars n) rest (natChars_all_digits n) hr
  rw [parseNat]
  simp only [h.1, h.2]
  rw [if_neg (by simp [List.isEmpty_iff, natChars_ne_nil n])]
  rw [foldl_natChars]

/- ### Hexadecimal digits and string escapes -/

theorem hexVal_hexDigitChar (d : Nat) (h : d < 16) : hexVal (hexDigitChar d) = some d := by
  interval_cases d <;> rfl

theorem hex4Val_hex4 (n : Nat) (h : n < 65536) :
    hex4Val (hexDigitChar (n / 4096 % 16)) (hexDigitChar (n / 256 % 16))
      (hexDigitChar (n / 16 % 16)) (hexDigitChar (n % 16)) = some n := by
  have h1 := hexVal_hexDigitChar (n / 4096 % 16) (Nat.mod_lt _ (by omega))
  have h2 := hexVal_hexDigitChar (n / 256 % 16) (Nat.mod_lt _ (by omega))
  have h3 := hexVal_hexDigitChar (n / 16 % 16) (Nat.mod_lt _ (by omega))
  have h4 := hexVal_hexDigitChar (n % 16) (Nat.mod_lt _ (by omega))
  simp only [hex4Val, h1, h2, h3, h4]
  congr 1
  omega

theorem psb_quote (r : List Char) : parseStringBody ('"' :: r) = some ([], r) := by
  simp only [parseStringBody, Char.reduceEq, reduceIte]

theorem psb_backslash (r : List Char) : parseStringBody ('\\' :: r) = parseEscape r := by
  simp only [parseStringBody, Char.reduceEq, reduceIte]

theorem psb_raw (c : Char) (r : List Char) (hq : ¬c = '"') (hb : ¬c = '\\') :
    parseStringBody (c :: r) = mapCons c (parseStringBody r) := by
  simp only [parseStringBody, if_neg hq, if_neg hb]

theorem pesc_quote (r : List Char) : parseEscape ('"' :: r) = mapCons '"' (parseStringBody r) := by
  simp only [parseEscape, Char.reduceEq, reduceIte]

theorem pesc_backslash (r : List Char) :
    parseEscape ('\\' :: r) = mapCons '\\' (parseStringBody r) := by
  simp only [parseEscape, Char.reduceEq, reduceIte]

theorem pesc_u (r : List Char) : parseEscape ('u' :: r) = parseHexEsc r := by
  simp only [parseEscape, Char.reduceEq, reduceIte]

theorem phex_plain (n : Nat) (r3 : List Char) (h : n < 65536)
    (hns1 : ¬(55296 ≤ n ∧ n < 56320)) (hns2 : ¬(56320 ≤ n ∧ n < 57344)) :
    parseHexEsc (hex4 n ++ r3) = mapCons (Char.ofNat n) (parseStringBody r3) := by
  simp only [hex4, List.cons_append, List.nil_append, parseHexEsc]
  simp only [hex4Val_hex4 n h]
  rw [if_neg hns1, if_neg hns2]

theorem phex_hi (n : Nat) (r3 : List Char) (h : n < 65536) (hsur : 55296 ≤ n ∧ n < 56320) :
    parseHexEsc (hex4 n ++ r3) = parseLowSurrogate n r3 := by
  simp only [hex4, List.cons_append, List.nil_append, parseHexEsc]
  simp only [hex4Val_hex4 n h]
  rw [if_pos hsur]

theorem plow_step (hN lo : Nat) (r4 : List Char) (h : lo < 65536)
    (hr : 56320 ≤ lo ∧ lo < 57344) :
    parseLowSurrogate hN ('\\' :: ('u' :: (hex4 lo ++ r4))) =
      mapCons (Char.ofNat (65536 + (hN - 55296) * 1024 + (lo - 56320))) (parseStringBody r4) := by
  simp only [hex4, List.cons_append, List.nil_append, parseLowSurrogate, Char.reduceEq,
    and_self, reduceIte]
  simp only [hex4Val_hex4 lo h]
  rw [if_pos hr]

theorem parseStringBody_escape (s rest : List Char) :
    parseStringBody (escapeList s ++ '"' :: rest) = some (s, rest) := by
  induction s with
  | nil =>
      simp only [escapeList, List.nil_append]
      exact psb_quote rest
  | cons c s ih =>
      have hval := char_toNat_valid c
      by_cases hq : c = '"'
      · subst hq
        simp only [escapeList, escapeChar, Char.reduceEq, reduceIte, List.cons_append,
          List.nil_append, List.append_assoc]
        rw [psb_backslash, pesc_quote, ih]
        rfl
      · by_cases hb : c = '\\'
        · subst hb
          simp only [escapeList, escapeChar, Char.reduceEq, reduceIte, List.cons_append,
            List.nil_append, List.append_assoc]
          rw [psb_backslash, pesc_backslash, ih]
          rfl
        · by_cases hraw : 32 ≤ c.toNat ∧ c.toNat ≤ 126
          · simp only [escapeList, escapeChar, if_neg hq, if_neg hb, if_pos hraw,
              List.cons_append, List.nil_append]
            rw [psb_raw c _ hq hb, ih]
            rfl
          · by_cases h16 : c.toNat < 65536
            · -- low plane, not printable: single backslash-u escape
              have hnsur1 : ¬(55296 ≤ c.toNat ∧ c.toNat < 56320) := by
                rcases hval with h | ⟨h1, h2⟩ <;> omega
              have hnsur2 : ¬(56320 ≤ c.toNat ∧ c.toNat < 57344) := by
                rcases hval with h | ⟨h1, h2⟩ <;> omega
              simp only [escapeList, escapeChar, if_neg hq, if_neg hb, if_neg hraw,
                if_pos h16, List.cons_append, List.nil_append, List.append_assoc]
              rw [psb_backslash, pesc_u, phex_plain c.toNat _ h16 hnsur1 hnsur2, ih]
              simp only [mapCons, ofNat_toNat_eq]
            · -- astral plane: surrogate pair
              have ht : c.toNat < 1114112 := by
                rcases hval with h | ⟨h1, h2⟩ <;> omega
              have hv1 : (c.toNat - 65536) / 1024 < 1024 := by omega
              have hhi : 55296 + (c.toNat - 65536) / 1024 < 65536 := by omega
              have hlomod := Nat.mod_lt (c.toNat - 65536) (by omega : 0 < 1024)
              have hlo : 56320 + (c.toNat - 65536) % 1024 < 65536 := by omega
              simp only [escapeList, escapeChar, if_neg hq, if_neg hb, if_neg hraw,
                if_neg h16, List.cons_append, List.nil_append, List.append_assoc]
              rw [psb_backslash, pesc_u,
                phex_hi _ _ hhi (by omega),
                plow_step _ _ _ hlo (by omega)]
              have harith :
                  65536 + (55296 + (c.toNat - 65536) / 1024 - 55296) * 1024 +
                    (56320 + (c.toNat - 65536) % 1024 - 56320) = c.toNat := by
                omega
              rw [harith, ih]
              simp only [mapCons, ofNat_toNat_eq]


/- ### Whitespace invariance of the parsers -/

theorem parseV_ws (fuel : Nat) (w s : List Char) (hw : ∀ c ∈ w, isWsC c = true) :
    parseV fuel (w ++ s) = parseV fuel s := by
  cases fuel with
  | zero => rfl
  | succ f =>
      simp only [parseV]
      rw [skipWs_append_ws w s hw]

theorem parseElems_ws (fuel : Nat) (w s : List Char) (hw : ∀ c ∈ w, isWsC c = true) :
    parseElems fuel (w ++ s) = parseElems fuel s := by
  cases fuel with
  | zero => rfl
  | succ f =>
      simp only [parseElems]
      rw [skipWs_append_ws w s hw]

theorem parseMember_ws (fuel : Nat) (w s : List Char) (hw : ∀ c ∈ w, isWsC c = true) :
    parseMember fuel (w ++ s) = parseMember fuel s := by
  cases fuel with
  | zero => rfl
  | succ f =>
      simp only [parseMember]
      rw [skipWs_append_ws w s hw]

theorem parseMembers_ws (fuel : Nat) (w s : List Char) (hw : ∀ c ∈ w, isWsC c = true) :
    parseMembers fuel (w ++ s) = parseMembers fuel s := by
  cases fuel with
  | zero => rfl
  | succ f =>
      simp only [parseMembers]
      rw [skipWs_append_ws w s hw]

/- ### Heads of rendered values -/

theorem natChars_head (n : Nat) : ∃ d t, natChars n = d :: t ∧ isDigitC d = true := by
  have h1 := natChars_ne_nil n
  have h2 := natChars_all_digits n
  cases hnc : natChars n with
  | nil => exact absurd hnc h1
  | cons d t => exact ⟨d, t, rfl, h2 d (by rw [hnc]; simp)⟩

theorem renderV_head (p : Bool) (lvl : Nat) (j : Jval) :
    ∃ c t, renderV p lvl j = c :: t ∧ isWsC c = false ∧ c ≠ ']' ∧ c ≠ '\x7d' := by
  cases j with
  | jnum i =>
      by_cases hi : i < 0
      · refine ⟨'-', natChars (-i).toNat, ?_, by decide, by decide, by decide⟩
        simp [renderV, intChars, if_pos hi]
      · obtain ⟨d, t, hd, hdig⟩ := natChars_head i.toNat
        refine ⟨d, t, ?_, not_ws_of_digit d hdig, ne_of_digit d _ hdig (by decide),
          ne_of_digit d _ hdig (by decide)⟩
        simp [renderV, intChars, if_neg hi, hd]
  | jbool b =>
      cases b
      · exact ⟨'f', _, rfl, by decide, by decide, by decide⟩
      · exact ⟨'t', _, rfl, by decide, by decide, by decide⟩
  | jnull => exact ⟨'n', _, rfl, by decide, by decide, by decide⟩
  | jstr s => exact ⟨'"', _, rfl, by decide, by decide, by decide⟩
  | jarr es =>
      cases es
      · exact ⟨'[', _, rfl, by decide, by decide, by decide⟩
      · exact ⟨'[', _, rfl, by decide, by decide, by decide⟩
  | jobj ms =>
      cases ms
      · exact ⟨'\x7b', _, rfl, by decide, by decide, by decide⟩
      · exact ⟨'\x7b', _, rfl, by decide, by decide, by decide⟩

theorem skipWs_renderV (p : Bool) (lvl : Nat) (j : Jval) (z : List Char) :
    skipWs (renderV p lvl j ++ z) = renderV p lvl j ++ z := by
  obtain ⟨c, t, he, hws, h1, h2⟩ := renderV_head p lvl j
  rw [he, List.cons_append, skipWs_cons_not c _ hws]

theorem emptyNext_ne (e c : Char) (t : List Char) (h : c ≠ e) :
    emptyNext e (c :: t) = false := by
  simp [emptyNext, h]

theorem emptyNext_renderV_rb (p : Bool) (lvl : Nat) (j : Jval) (z : List Char) :
    emptyNext ']' (skipWs (renderV p lvl j ++ z)) = false := by
  obtain ⟨c, t, he, hws, h1, h2⟩ := renderV_head p lvl j
  rw [he, List.cons_append, skipWs_cons_not c _ hws]
  exact emptyNext_ne _ _ _ h1

theorem emptyNext_renderV_cb (p : Bool) (lvl : Nat) (j : Jval) (z : List Char) :
    emptyNext '\x7d' (skipWs (renderV p lvl j ++ z)) = false := by
  obtain ⟨c, t, he, hws, h1, h2⟩ := renderV_head p lvl j
  rw [he, List.cons_append, skipWs_cons_not c _ hws]
  exact emptyNext_ne _ _ _ h2

theorem emptyNext_key_cb (kd z : List Char) :
    emptyNext '\x7d' (skipWs (renderString kd ++ z)) = false := by
  simp only [renderString, List.cons_append, skipWs_cons_not '"' _ (by decide)]
  exact emptyNext_ne _ _ _ (by decide)

/- ### delimOk facts -/

theorem delimOk_cons (c : Char) (t : List Char) (h : isDigitC c = false) :
    delimOk (c :: t) = true := by
  simp [delimOk, h]

theorem delimOk_nlIndent (p : Bool) (lvl : Nat) (c : Char) (t : List Char)
    (h : isDigitC c = false) : delimOk (nlIndent p lvl ++ c :: t) = true := by
  cases p with
  | false => simpa [nlIndent] using delimOk_cons c t h
  | true =>
      simp only [nlIndent, if_pos, List.cons_append]
      exact delimOk_cons '\n' _ (by decide)

theorem delimOk_elems (p : Bool) (lvl lvl2 : Nat) (es : JElems) (rest : List Char) :
    delimOk (renderElems p lvl es ++ (nlIndent p lvl2 ++ ']' :: rest)) = true := by
  cases es with
  | nil =>
      simp only [renderElems, List.nil_append]
      exact delimOk_nlIndent p lvl2 ']' rest (by decide)
  | cons v es =>
      simp only [renderElems, List.cons_append]
      exact delimOk_cons ',' _ (by decide)

theorem delimOk_members (p : Bool) (lvl lvl2 : Nat) (ms : JMembers) (rest : List Char) :
    delimOk (renderMembers p lvl ms ++ (nlIndent p lvl2 ++ '\x7d' :: rest)) = true := by
  cases ms with
  | nil =>
      simp only [renderMembers, List.nil_append]
      exact delimOk_nlIndent p lvl2 '\x7d' rest (by decide)
  | cons k v ms =>
      simp only [renderMembers, List.cons_append]
      exact delimOk_cons ',' _ (by decide)

/- ### Single-step characterizations of parseV on each kind of head -/

theorem parseV_null_step (f : Nat) (r : List Char) :
    parseV (f + 1) ('n' :: r) = (expectChars ['u', 'l', 'l'] r).map (fun r2 => (Jval.jnull, r2)) := by
  simp only [parseV]
  rw [skipWs_cons_not _ _ (by decide)]
  simp only [Char.reduceEq, reduceIte]

theorem parseV_true_step (f : Nat) (r : List Char) :
    parseV (f + 1) ('t' :: r) =
      (expectChars ['r', 'u', 'e'] r).map (fun r2 => (Jval.jbool true, r2)) := by
  simp only [parseV]
  rw [skipWs_cons_not _ _ (by decide)]
  simp only [Char.reduceEq, reduceIte]

theorem parseV_false_step (f : Nat) (r : List Char) :
    parseV (f + 1) ('f' :: r) =
      (expectChars ['a', 'l', 's', 'e'] r).map (fun r2 => (Jval.jbool false, r2)) := by
  simp only [parseV]
  rw [skipWs_cons_not _ _ (by decide)]
  simp only [Char.reduceEq, reduceIte]

theorem parseV_quote_step (f : Nat) (r : List Char) :
    parseV (f + 1) ('"' :: r) = (parseStringBody r).map (fun q => (Jval.jstr q.1, q.2)) := by
  simp only [parseV]
  rw [skipWs_cons_not _ _ (by decide)]
  simp only [Char.reduceEq, reduceIte]

theorem parseV_neg_step (f : Nat) (r : List Char) :
    parseV (f + 1) ('-' :: r) = (parseNat r).map (fun q => (Jval.jnum (-(q.1 : Int)), q.2)) := by
  simp only [parseV]
  rw [skipWs_cons_not _ _ (by decide)]
  simp only [Char.reduceEq, reduceIte]

theorem parseV_digit_step (f : Nat) (c : Char) (r : List Char) (hd : isDigitC c = true) :
    parseV (f + 1) (c :: r) = (parseNat (c :: r)).map (fun q => (Jval.jnum (q.1 : Int), q.2)) := by
  simp only [parseV]
  rw [skipWs_cons_not _ _ (not_ws_of_digit c hd)]
  simp only [if_neg (ne_of_digit c 'n' hd (by decide)), if_neg (ne_of_digit c 't' hd (by decide)),
    if_neg (ne_of_digit c 'f' hd (by decide)), if_neg (ne_of_digit c '"' hd (by decide)),
    if_neg (ne_of_digit c '[' hd (by decide)), if_neg (ne_of_digit c '\x7b' hd (by decide)),
    if_neg (ne_of_digit c '-' hd (by decide)), if_pos hd]

theorem parseV_arr_nil_step (f : Nat) (r : List Char) (he : emptyNext ']' (skipWs r) = true) :
    parseV (f + 1) ('[' :: r) = some (Jval.jarr JElems.nil, (skipWs r).tail) := by
  simp only [parseV]
  rw [skipWs_cons_not _ _ (by decide)]
  simp only [Char.reduceEq, reduceIte, he, if_true]

theorem parseV_arr_cons_step (f : Nat) (r r2 r3 : List Char) (v : Jval) (es : JElems)
    (he : emptyNext ']' (skipWs r) = false)
    (hv : parseV f r = some (v, r2)) (hes : parseElems f r2 = some (es, r3)) :
    parseV (f + 1) ('[' :: r) = some (Jval.jarr (JElems.cons v es), r3) := by
  simp only [parseV]
  rw [skipWs_cons_not _ _ (by decide)]
  simp only [Char.reduceEq, reduceIte, he, Bool.false_eq_true, if_false, hv, hes]

theorem parseV_obj_nil_step (f : Nat) (r : List Char)
    (he : emptyNext '\x7d' (skipWs r) = true) :
    parseV (f + 1) ('\x7b' :: r) = some (Jval.jobj JMembers.nil, (skipWs r).tail) := by
  simp only [parseV]
  rw [skipWs_cons_not _ _ (by decide)]
  simp only [Char.reduceEq, reduceIte, he, if_true]

theorem parseV_obj_cons_step (f : Nat) (r r2 r3 : List Char) (kv : String × Jval)
    (ms : JMembers) (he : emptyNext '\x7d' (skipWs r) = false)
    (hm : parseMember f r = some (kv, r2)) (hms : parseMembers f r2 = some (ms, r3)) :
    parseV (f + 1) ('\x7b' :: r) = some (Jval.jobj (JMembers.cons kv.1 kv.2 ms), r3) := by
  simp only [parseV]
  rw [skipWs_cons_not _ _ (by decide)]
  simp only [Char.reduceEq, reduceIte, he, Bool.false_eq_true, if_false, hm, hms]

theorem parseElems_close_step (f : Nat) (r : List Char) :
    parseElems (f + 1) (']' :: r) = some (JElems.nil, r) := by
  simp only [parseElems]
  rw [skipWs_cons_not _ _ (by decide)]
  simp only [Char.reduceEq, reduceIte]

theorem parseElems_comma_step (f : Nat) (r r2 r3 : List Char) (v : Jval) (es : JElems)
    (hv : parseV f r = some (v, r2)) (hes : parseElems f r2 = some (es, r3)) :
    parseElems (f + 1) (',' :: r) = some (JElems.cons v es, r3) := by
  simp only [parseElems]
  rw [skipWs_cons_not _ _ (by decide)]
  simp only [Char.reduceEq, reduceIte, hv, hes]

theorem parseMembers_close_step (f : Nat) (r : List Char) :
    parseMembers (f + 1) ('\x7d' :: r) = some (JMembers.nil, r) := by
  simp only [parseMembers]
  rw [skipWs_cons_not _ _ (by decide)]
  simp only [Char.reduceEq, reduceIte]

theorem parseMembers_comma_step (f : Nat) (r r2 r3 : List Char) (kv : String × Jval)
    (ms : JMembers) (hm : parseMember f r = some (kv, r2))
    (hms : parseMembers f r2 = some (ms, r3)) :
    parseMembers (f + 1) (',' :: r) = some (JMembers.cons kv.1 kv.2 ms, r3) := by
  simp only [parseMembers]
  rw [skipWs_cons_not _ _ (by decide)]
  simp only [Char.reduceEq, reduceIte, hm, hms]

theorem stringMk_data (s : String) : String.mk s.data = s := rfl

theorem parseMember_render (f : Nat) (p : Bool) (lvl : Nat) (k : String) (v : Jval)
    (z : List Char) (hv : parseV f (renderV p lvl v ++ z) = some (v, z)) :
    parseMember (f + 1) (renderString k.data ++ (colonSep p ++ (renderV p lvl v ++ z))) =
      some ((k, v), z) := by
  simp only [renderString, List.cons_append, List.nil_append, List.append_assoc]
  simp only [parseMember]
  rw [skipWs_cons_not _ _ (by decide)]
  simp only [Char.reduceEq, reduceIte]
  have hstr := parseStringBody_escape k.data (colonSep p ++ (renderV p lvl v ++ z))
  rw [hstr]
  cases p with
  | false =>
      simp only [colonSep, Bool.false_eq_true, if_false, List.cons_append, List.nil_append]
      rw [skipWs_cons_not _ _ (by decide)]
      simp only [Char.reduceEq, reduceIte, hv, stringMk_data]
  | true =>
      simp only [colonSep, if_true, List.cons_append, List.nil_append]
      rw [skipWs_cons_not _ _ (by decide)]
      simp only [Char.reduceEq, reduceIte]
      rw [show (' ' :: (renderV true lvl v ++ z)) = [' '] ++ (renderV true lvl v ++ z) from rfl,
          parseV_ws f [' '] _ (by intro c hc; simp only [List.mem_singleton] at hc; subst hc; decide)]
      simp only [hv, stringMk_data]


/- ### Sizes are positive -/

theorem sizeV_pos (j : Jval) : 1 ≤ sizeV j := by
  cases j <;> (simp only [sizeV]; omega)

theorem sizeE_pos (es : JElems) : 1 ≤ sizeE es := by
  cases es <;> (simp only [sizeE]; omega)

theorem sizeM_pos (ms : JMembers) : 1 ≤ sizeM ms := by
  cases ms <;> (simp only [sizeM]; omega)

/- ### The parser inverts the renderer, in both whitespace modes -/

mutual

theorem parseV_render (fuel : Nat) (p : Bool) (lvl : Nat) (j : Jval) (rest : List Char)
    (hf : sizeV j ≤ fuel) (hr : delimOk rest = true) :
    parseV fuel (renderV p lvl j ++ rest) = some (j, rest) := by
  cases fuel with
  | zero => exact absurd hf (by have := sizeV_pos j; omega)
  | succ f =>
      cases j with
      | jnum i =>
          by_cases hi : i < 0
          · have hrv : renderV p lvl (Jval.jnum i) = '-' :: natChars (-i).toNat := by
              simp [renderV, intChars, if_pos hi]
            rw [hrv, List.cons_append, parseV_neg_step, parseNat_natChars _ _ hr]
            simp only [Option.map_some']
            have h2 : -(((-i).toNat : Int)) = i := by omega
            rw [h2]
          · obtain ⟨d, t, hd, hdig⟩ := natChars_head i.toNat
            have hrv : renderV p lvl (Jval.jnum i) = natChars i.toNat := by
              simp [renderV, intChars, if_neg hi]
            rw [hrv, hd, List.cons_append, parseV_digit_step f d _ hdig,
              ← List.cons_append, ← hd, parseNat_natChars _ _ hr]
            simp only [Option.map_some']
            have h2 : ((i.toNat : Nat) : Int) = i := by omega
            rw [h2]
      | jbool b =>
          cases b with
          | false =>
              rw [show renderV p lvl (Jval.jbool false) = ['f', 'a', 'l', 's', 'e'] from rfl]
              simp only [List.cons_append, List.nil_append]
              rw [parseV_false_step]
              simp only [expectChars, Char.reduceEq, reduceIte, Option.map_some']
          | true =>
              rw [show renderV p lvl (Jval.jbool true) = ['t', 'r', 'u', 'e'] from rfl]
              simp only [List.cons_append, List.nil_append]
              rw [parseV_true_step]
              simp only [expectChars, Char.reduceEq, reduceIte, Option.map_some']
      | jnull =>
          simp only [renderV, List.cons_append, List.nil_append]
          rw [parseV_null_step]
          simp only [expectChars, Char.reduceEq, reduceIte, Option.map_some']
      | jstr s =>
          simp only [renderV, renderString, List.cons_append, List.nil_append,
            List.append_assoc]
          rw [parseV_quote_step, parseStringBody_escape]
          simp only [Option.map_some']
      | jarr es =>
          cases es with
          | nil =>
              simp only [renderV, List.cons_append, List.nil_append]
              have he : emptyNext ']' (skipWs (']' :: rest)) = true := by
                rw [skipWs_cons_not _ _ (by decide)]
                simp [emptyNext]
              rw [parseV_arr_nil_step f _ he, skipWs_cons_not _ _ (by decide)]
              rfl
          | cons v es2 =>
              simp only [sizeV, sizeE] at hf
              simp only [renderV, List.cons_append, List.nil_append, List.append_assoc]
              have he : emptyNext ']'
                  (skipWs (nlIndent p (lvl + 1) ++ (renderV p (lvl + 1) v ++
                    (renderElems p (lvl + 1) es2 ++ (nlIndent p lvl ++ (']' :: rest)))))) =
                  false := by
                rw [skipWs_append_ws _ _ (nlIndent_ws p (lvl + 1))]
                exact emptyNext_renderV_rb p (lvl + 1) v _
              have hv : parseV f (nlIndent p (lvl + 1) ++ (renderV p (lvl + 1) v ++
                  (renderElems p (lvl + 1) es2 ++ (nlIndent p lvl ++ (']' :: rest))))) =
                  some (v, renderElems p (lvl + 1) es2 ++ (nlIndent p lvl ++ (']' :: rest))) := by
                rw [parseV_ws f _ _ (nlIndent_ws p (lvl + 1))]
                exact parseV_render f p (lvl + 1) v _ (by omega)
                  (delimOk_elems p (lvl + 1) lvl es2 rest)
              have hes : parseElems f (renderElems p (lvl + 1) es2 ++
                  (nlIndent p lvl ++ (']' :: rest))) = some (es2, rest) :=
                parseElems_render f p lvl es2 rest (by omega) hr
              exact parseV_arr_cons_step f _ _ _ v es2 he hv hes
      | jobj ms =>
          cases ms with
          | nil =>
              simp only [renderV, List.cons_append, List.nil_append]
              have he : emptyNext '\x7d' (skipWs ('\x7d' :: rest)) = true := by
                rw [skipWs_cons_not _ _ (by decide)]
                simp [emptyNext]
              rw [parseV_obj_nil_step f _ he, skipWs_cons_not _ _ (by decide)]
              rfl
          | cons k v ms2 =>
              simp only [sizeV, sizeM] at hf
              have hf2 : sizeV v + 2 ≤ f + 1 := by
                have := sizeM_pos ms2
                omega
              cases f with
              | zero => exact absurd hf2 (by omega)
              | succ f2 =>
                  simp only [renderV, List.cons_append, List.nil_append, List.append_assoc]
                  have he : emptyNext '\x7d'
                      (skipWs (nlIndent p (lvl + 1) ++ (renderString k.data ++ (colonSep p ++
                        (renderV p (lvl + 1) v ++ (renderMembers p (lvl + 1) ms2 ++
                          (nlIndent p lvl ++ ('\x7d' :: rest)))))))) = false := by
                    rw [skipWs_append_ws _ _ (nlIndent_ws p (lvl + 1))]
                    exact emptyNext_key_cb k.data _
                  have hv : parseV f2 (renderV p (lvl + 1) v ++
                      (renderMembers p (lvl + 1) ms2 ++ (nlIndent p lvl ++ ('\x7d' :: rest)))) =
                      some (v, renderMembers p (lvl + 1) ms2 ++
                        (nlIndent p lvl ++ ('\x7d' :: rest))) :=
                    parseV_render f2 p (lvl + 1) v _ (by omega)
                      (delimOk_members p (lvl + 1) lvl ms2 rest)
                  have hm : parseMember (f2 + 1) (nlIndent p (lvl + 1) ++
                      (renderString k.data ++ (colonSep p ++ (renderV p (lvl + 1) v ++
                        (renderMembers p (lvl + 1) ms2 ++
                          (nlIndent p lvl ++ ('\x7d' :: rest))))))) =
                      some ((k, v), renderMembers p (lvl + 1) ms2 ++
                        (nlIndent p lvl ++ ('\x7d' :: rest))) := by
                    rw [parseMember_ws _ _ _ (nlIndent_ws p (lvl + 1))]
                    exact parseMember_render f2 p (lvl + 1) k v _ hv
                  have hms : parseMembers (f2 + 1) (renderMembers p (lvl + 1) ms2 ++
                      (nlIndent p lvl ++ ('\x7d' :: rest))) = some (ms2, rest) :=
                    parseMembers_render (f2 + 1) p lvl ms2 rest (by omega) hr
                  exact parseV_obj_cons_step (f2 + 1) _ _ _ (k, v) ms2 he hm hms
termination_by sizeV j
decreasing_by all_goals (simp_wf; subst_vars; try simp only [sizeV, sizeE, sizeM]; omega)

theorem parseElems_render (fuel : Nat) (p : Bool) (lvl : Nat) (es : JElems) (rest : List Char)
    (hf : sizeE es ≤ fuel) (hr : delimOk rest = true) :
    parseElems fuel (renderElems p (lvl + 1) es ++ (nlIndent p lvl ++ (']' :: rest))) =
      some (es, rest) := by
  cases fuel with
  | zero => exact absurd hf (by have := sizeE_pos es; omega)
  | succ f =>
      cases es with
      | nil =>
          simp only [renderElems, List.nil_append]
          rw [parseElems_ws (f + 1) _ _ (nlIndent_ws p lvl), parseElems_close_step]
      | cons v es2 =>
          simp only [sizeE] at hf
          simp only [renderElems, List.cons_append, List.nil_append, List.append_assoc]
          have hv : parseV f (nlIndent p (lvl + 1) ++ (renderV p (lvl + 1) v ++
              (renderElems p (lvl + 1) es2 ++ (nlIndent p lvl ++ (']' :: rest))))) =
              some (v, renderElems p (lvl + 1) es2 ++ (nlIndent p lvl ++ (']' :: rest))) := by
            rw [parseV_ws f _ _ (nlIndent_ws p (lvl + 1))]
            exact parseV_render f p (lvl + 1) v _ (by omega)
              (delimOk_elems p (lvl + 1) lvl es2 rest)
          have hes : parseElems f (renderElems p (lvl + 1) es2 ++
              (nlIndent p lvl ++ (']' :: rest))) = some (es2, rest) :=
            parseElems_render f p lvl es2 rest (by omega) hr
          exact parseElems_comma_step f _ _ _ v es2 hv hes
termination_by sizeE es
decreasing_by all_goals (simp_wf; subst_vars; try simp only [sizeV, sizeE, sizeM]; omega)

theorem parseMembers_render (fuel : Nat) (p : Bool) (lvl : Nat) (ms : JMembers)
    (rest : List Char) (hf : sizeM ms ≤ fuel) (hr : delimOk rest = true) :
    parseMembers fuel (renderMembers p (lvl + 1) ms ++ (nlIndent p lvl ++ ('\x7d' :: rest))) =
      some (ms, rest) := by
  cases fuel with
  | zero => exact absurd hf (by have := sizeM_pos ms; omega)
  | succ f =>
      cases ms with
      | nil =>
          simp only [renderMembers, List.nil_append]
          rw [parseMembers_ws (f + 1) _ _ (nlIndent_ws p lvl), parseMembers_close_step]
      | cons k v ms2 =>
          simp only [sizeM] at hf
          have hvp := sizeV_pos v
          have hmp := sizeM_pos ms2
          have hfv : 1 ≤ f := by omega
          cases f with
          | zero => exact absurd hfv (by omega)
          | succ f2 =>
              simp only [renderMembers, List.cons_append, List.nil_append, List.append_assoc]
              have hv : parseV f2 (renderV p (lvl + 1) v ++
                  (renderMembers p (lvl + 1) ms2 ++ (nlIndent p lvl ++ ('\x7d' :: rest)))) =
                  some (v, renderMembers p (lvl + 1) ms2 ++
                    (nlIndent p lvl ++ ('\x7d' :: rest))) :=
                parseV_render f2 p (lvl + 1) v _ (by omega)
                  (delimOk_members p (lvl + 1) lvl ms2 rest)
              have hm : parseMember (f2 + 1) (nlIndent p (lvl + 1) ++
                  (renderString k.data ++ (colonSep p ++ (renderV p (lvl + 1) v ++
                    (renderMembers p (lvl + 1) ms2 ++
                      (nlIndent p lvl ++ ('\x7d' :: rest))))))) =
                  some ((k, v), renderMembers p (lvl + 1) ms2 ++
                    (nlIndent p lvl ++ ('\x7d' :: rest))) := by
                rw [parseMember_ws _ _ _ (nlIndent_ws p (lvl + 1))]
                exact parseMember_render f2 p (lvl + 1) k v _ hv
              have hms : parseMembers (f2 + 1) (renderMembers p (lvl + 1) ms2 ++
                  (nlIndent p lvl ++ ('\x7d' :: rest))) = some (ms2, rest) :=
                parseMembers_render (f2 + 1) p lvl ms2 rest (by omega) hr
              exact parseMembers_comma_step (f2 + 1) _ _ _ (k, v) ms2 hm hms
termination_by sizeM ms
decreasing_by all_goals (simp_wf; subst_vars; try simp only [sizeV, sizeE, sizeM]; omega)

end


/- ### The parser fuel supplied by jsonLoads suffices for rendered documents -/

theorem renderV_length_pos (p : Bool) (lvl : Nat) (j : Jval) :
    1 ≤ (renderV p lvl j).length := by
  obtain ⟨c, t, he, h1, h2, h3⟩ := renderV_head p lvl j
  rw [he]
  simp

mutual

theorem sizeV_le_render (p : Bool) (lvl : Nat) (j : Jval) :
    sizeV j ≤ 2 * (renderV p lvl j).length := by
  cases j with
  | jnum i =>
      have := renderV_length_pos p lvl (Jval.jnum i)
      simp only [sizeV]
      omega
  | jbool b =>
      have := renderV_length_pos p lvl (Jval.jbool b)
      simp only [sizeV]
      omega
  | jnull =>
      have := renderV_length_pos p lvl Jval.jnull
      simp only [sizeV]
      omega
  | jstr s =>
      have := renderV_length_pos p lvl (Jval.jstr s)
      simp only [sizeV]
      omega
  | jarr es =>
      cases es with
      | nil => simp [renderV, sizeV, sizeE]
      | cons v es2 =>
          have h1 := sizeV_le_render p (lvl + 1) v
          have h2 := sizeE_le_render p (lvl + 1) es2
          simp only [renderV, sizeV, sizeE, List.length_cons, List.length_append]
          omega
  | jobj ms =>
      cases ms with
      | nil => simp [renderV, sizeV, sizeM]
      | cons k v ms2 =>
          have h1 := sizeV_le_render p (lvl + 1) v
          have h2 := sizeM_le_render p (lvl + 1) ms2
          simp only [renderV, sizeV, sizeM, List.length_cons, List.length_append]
          omega
termination_by sizeV j
decreasing_by all_goals (simp_wf; subst_vars; try simp only [sizeV, sizeE, sizeM]; omega)

theorem sizeE_le_render (p : Bool) (lvl : Nat) (es : JElems) :
    sizeE es ≤ 2 * (renderElems p lvl es).length + 2 := by
  cases es with
  | nil => simp [renderElems, sizeE]
  | cons v es2 =>
      have h1 := sizeV_le_render p lvl v
      have h2 := sizeE_le_render p lvl es2
      simp only [renderElems, sizeE, List.length_cons, List.length_append]
      omega
termination_by sizeE es
decreasing_by all_goals (simp_wf; subst_vars; try simp only [sizeV, sizeE, sizeM]; omega)

theorem sizeM_le_render (p : Bool) (lvl : Nat) (ms : JMembers) :
    sizeM ms ≤ 2 * (renderMembers p lvl ms).length + 2 := by
  cases ms with
  | nil => simp [renderMembers, sizeM]
  | cons k v ms2 =>
      have h1 := sizeV_le_render p lvl v
      have h2 := sizeM_le_render p lvl ms2
      simp only [renderMembers, sizeM, List.length_cons, List.length_append]
      omega
termination_by sizeM ms
decreasing_by all_goals (simp_wf; subst_vars; try simp only [sizeV, sizeE, sizeM]; omega)

end

theorem jsonLoads_render (p : Bool) (j : Jval) : jsonLoads (renderV p 0 j) = some j := by
  have hs := sizeV_le_render p 0 j
  have h := parseV_render (2 * (renderV p 0 j).length + 2) p 0 j [] (by omega)
    (by simp [delimOk])
  rw [List.append_nil] at h
  simp only [jsonLoads, h]
  simp [skipWs]


/- ### The typed record data model.
Modelled from the spec: the ETDump record schemas (executorch.sdk.etdump.schema and
schema_flatcc) and the dataclass codec (executorch.exir._serialize._dataclass) are not
part of the sources under verification; the spec describes records as trees of named
fields whose values are scalars with a declared subtype, nested records, ordered
sequences, optional fields, or tagged unions over a fixed set of named variants.  A
schema variant is a value of the descriptor type Ty; the two concrete variants (legacy
ETDump and current ETDumpFlatCC) are two such descriptor values. -/

inductive ScalarTy where
  | intTy : ScalarTy
  | boolTy : ScalarTy
  | strTy : ScalarTy
deriving DecidableEq

mutual

inductive Ty where
  | scalar : ScalarTy → Ty
  | record : TFields → Ty
  | seq : Ty → Ty
  | union : TVariants → Ty
  | opt : Ty → Ty

inductive TFields where
  | nil : TFields
  | cons : String → Ty → TFields → TFields

inductive TVariants where
  | nil : TVariants
  | cons : String → Ty → TVariants → TVariants

end

mutual

inductive Val where
  | vint : Int → Val
  | vbool : Bool → Val
  | vstr : List Char → Val
  | vnone : Val
  | vsome : Val → Val
  | vrec : VFields → Val
  | vseq : VElems → Val
  | vunion : String → Val → Val

inductive VFields where
  | nil : VFields
  | cons : String → Val → VFields → VFields

inductive VElems where
  | nil : VElems
  | cons : Val → VElems → VElems

end

/- ### Encoding a typed record as a JSON document.
Modelled from the spec: _DataclassEncoder emits each record field as a JSON member in
field declaration order (never sorted), sequences as arrays, None as null, and a
tagged-union value as an object carrying an explicit discriminator member naming the
active variant next to the encoded payload. -/

mutual

def encodeJ : Val → Jval
  | .vint n => .jnum n
  | .vbool b => .jbool b
  | .vstr s => .jstr s
  | .vnone => .jnull
  | .vsome v => encodeJ v
  | .vrec fs => .jobj (encodeFields fs)
  | .vseq vs => .jarr (encodeElems vs)
  | .vunion tag v =>
      .jobj (JMembers.cons "variant" (.jstr tag.data)
        (JMembers.cons "value" (encodeJ v) JMembers.nil))

def encodeFields : VFields → JMembers
  | .nil => .nil
  | .cons n v fs => .cons n (encodeJ v) (encodeFields fs)

def encodeElems : VElems → JElems
  | .nil => .nil
  | .cons v vs => .cons (encodeJ v) (encodeElems vs)

end

/- ### Errors of the serialization module -/

inductive SerError where
  | missingField : List String → SerError
  | unknownVariant : List String → SerError
  | typeMismatch : List String → SerError
  | resourceNotFound : String → SerError
  | unicodeEncodeError : SerError
  | fileNotFound : String × String → SerError
  | schemaCompiler : SerError
  | jsonDecodeError : SerError
deriving DecidableEq

/- ### Decoding a JSON document against a schema descriptor.
Modelled from the spec: _json_to_dataclass reconstructs the record guided by the
target schema: every declared field must be resolvable in the JSON (MissingFieldError
naming the field path when absent, unless the field is optional), unrecognized JSON
members are ignored, and a tagged-union discriminator outside the declared variant
set fails with UnknownVariantError. -/

def isOptTy : Ty → Bool
  | .opt _ => true
  | _ => false

def jLookup : JMembers → String → Option Jval
  | .nil, _ => none
  | .cons k v ms, n => if k = n then some v else jLookup ms n

def mapE (f : α → β) : Except SerError α → Except SerError β
  | .ok a => .ok (f a)
  | .error e => .error e

def bindE (x : Except SerError α) (f : α → Except SerError β) : Except SerError β :=
  match x with
  | .error e => .error e
  | .ok a => f a

def decodeScalar (path : List String) (st : ScalarTy) (j : Jval) : Except SerError Val :=
  match st, j with
  | .intTy, .jnum n => .ok (.vint n)
  | .boolTy, .jbool b => .ok (.vbool b)
  | .strTy, .jstr s => .ok (.vstr s)
  | _, _ => .error (.typeMismatch path)

mutual

def decodeJ (path : List String) : Ty → Jval → Except SerError Val
  | .scalar st, j => decodeScalar path st j
  | .record fs, j =>
      match j with
      | .jobj ms => mapE Val.vrec (decodeFields path fs ms)
      | _ => .error (.typeMismatch path)
  | .seq t, j =>
      match j with
      | .jarr es => mapE Val.vseq (decodeElems path t es)
      | _ => .error (.typeMismatch path)
  | .union vs, j =>
      match j with
      | .jobj ms => decodeUnionObj path vs ms
      | _ => .error (.typeMismatch path)
  | .opt t, j =>
      match j with
      | .jnull => .ok Val.vnone
      | j2 => mapE Val.vsome (decodeJ path t j2)
termination_by t j => (sizeOf t, 1)
decreasing_by all_goals (simp_wf; try omega)

def decodeUnionObj (path : List String) (vs : TVariants) (ms : JMembers) :
    Except SerError Val :=
  match jLookup ms "variant" with
  | none => .error (.missingField (path ++ ["variant"]))
  | some (.jstr tagChars) =>
      match jLookup ms "value" with
      | none => .error (.missingField (path ++ ["value"]))
      | some jv => decodeUnion path vs (String.mk tagChars) jv
  | some _ => .error (.typeMismatch (path ++ ["variant"]))
termination_by (sizeOf vs + 1, 0)
decreasing_by all_goals (simp_wf; try omega)

def decodeUnion (path : List String) : TVariants → String → Jval → Except SerError Val
  | .nil, _, _ => .error (.unknownVariant path)
  | .cons n t vr, tag, jv =>
      if tag = n then mapE (Val.vunion tag) (decodeJ path t jv)
      else decodeUnion path vr tag jv
termination_by vs tag jv => (sizeOf vs, 0)
decreasing_by all_goals (simp_wf; try omega)

def decodeFields (path : List String) : TFields → JMembers → Except SerError VFields
  | .nil, _ => .ok .nil
  | .cons n t fr, ms =>
      match jLookup ms n with
      | none =>
          if isOptTy t then
            bindE (decodeFields path fr ms) (fun rest => .ok (.cons n .vnone rest))
          else .error (.missingField (path ++ [n]))
      | some jv =>
          bindE (decodeJ (path ++ [n]) t jv) (fun v =>
            bindE (decodeFields path fr ms) (fun rest => .ok (.cons n v rest)))
termination_by fs ms => (sizeOf fs, 0)
decreasing_by all_goals (simp_wf; try omega)

def decodeElems (path : List String) (t : Ty) : JElems → Except SerError VElems
  | .nil => .ok .nil
  | .cons jv es =>
      bindE (decodeJ path t jv) (fun v =>
        bindE (decodeElems path t es) (fun vs => .ok (.cons v vs)))
termination_by es => (sizeOf t, 2 + sizeOf es)
decreasing_by all_goals (simp_wf; try omega)

end

/- ### Validity of a value under a schema descriptor, and schema wellformedness -/

def validScalar (st : ScalarTy) (v : Val) : Bool :=
  match st, v with
  | .intTy, .vint _ => true
  | .boolTy, .vbool _ => true
  | .strTy, .vstr _ => true
  | _, _ => false

mutual

def validB : Ty → Val → Bool
  | .scalar st, v => validScalar st v
  | .record fs, v =>
      match v with
      | .vrec flds => validFields fs flds
      | _ => false
  | .seq t, v =>
      match v with
      | .vseq vs => validElems t vs
      | _ => false
  | .union vr, v =>
      match v with
      | .vunion tag w => validUnion vr tag w
      | _ => false
  | .opt t, v =>
      match v with
      | .vnone => true
      | .vsome w => validB t w
      | _ => false
termination_by t v => (sizeOf t, 1)
decreasing_by all_goals (simp_wf; try omega)

def validFields : TFields → VFields → Bool
  | .nil, .nil => true
  | .cons n t fr, .cons n2 v vr =>
      decide (n = n2) && validB t v && validFields fr vr
  | _, _ => false
termination_by fs flds => (sizeOf fs, 0)
decreasing_by all_goals (simp_wf; try omega)

def validElems (t : Ty) : VElems → Bool
  | .nil => true
  | .cons v vs => validB t v && validElems t vs
termination_by vs => (sizeOf t, 2 + sizeOf vs)
decreasing_by all_goals (simp_wf; try omega)

def validUnion : TVariants → String → Val → Bool
  | .nil, _, _ => false
  | .cons n t vr, tag, v => if tag = n then validB t v else validUnion vr tag v
termination_by vs tag v => (sizeOf vs, 0)
decreasing_by all_goals (simp_wf; try omega)

end

def namesOfT : TFields → List String
  | .nil => []
  | .cons n _ fr => n :: namesOfT fr

mutual

def wfT : Ty → Bool
  | .scalar _ => true
  | .record fs => decide (namesOfT fs).Nodup && wfFields fs
  | .seq t => wfT t
  | .union vs => wfVariants vs
  | .opt t => !isOptTy t && wfT t

def wfFields : TFields → Bool
  | .nil => true
  | .cons _ t fr => wfT t && wfFields fr

def wfVariants : TVariants → Bool
  | .nil => true
  | .cons _ t vr => wfT t && wfVariants vr

end

deriving instance DecidableEq for Jval

deriving instance DecidableEq for JElems

deriving instance DecidableEq for JMembers

/- ### The decoder inverts the encoder on wellformed schemas -/

theorem jLookup_head (k : String) (v : Jval) (ms : JMembers) :
    jLookup (JMembers.cons k v ms) k = some v := by
  simp [jLookup]

theorem jLookup_skip (k n : String) (v : Jval) (ms : JMembers) (h : ¬k = n) :
    jLookup (JMembers.cons k v ms) n = jLookup ms n := by
  simp [jLookup, h]

def membersMatch (ms : JMembers) : TFields → VFields → Bool
  | .nil, .nil => true
  | .cons n _ fr, .cons _ v vr =>
      decide (jLookup ms n = some (encodeJ v)) && membersMatch ms fr vr
  | _, _ => false

theorem jLookup_variant_value (x y : Jval) (ms : JMembers) :
    jLookup (JMembers.cons "variant" x (JMembers.cons "value" y ms)) "value" = some y := by
  rw [jLookup_skip _ _ _ _ (by decide), jLookup_head]

theorem membersMatch_extend (ms : JMembers) (fs : TFields) (flds : VFields)
    (n0 : String) (x : Jval) (h : membersMatch ms fs flds = true)
    (hn : n0 ∉ namesOfT fs) :
    membersMatch (JMembers.cons n0 x ms) fs flds = true := by
  cases fs with
  | nil =>
      cases flds with
      | nil => simp [membersMatch]
      | cons n2 v vr => simp [membersMatch] at h
  | cons n t fr =>
      cases flds with
      | nil => simp [membersMatch] at h
      | cons n2 v vr =>
          simp only [membersMatch, Bool.and_eq_true, decide_eq_true_eq] at h
          simp only [namesOfT, List.mem_cons, not_or] at hn
          simp only [membersMatch, Bool.and_eq_true, decide_eq_true_eq]
          constructor
          · rw [jLookup_skip n0 n x ms hn.1]
            exact h.1
          · exact membersMatch_extend ms fr vr n0 x h.2 hn.2
termination_by sizeOf fs
decreasing_by all_goals (simp_wf; subst_vars; try simp [Prod.lex_def]; try omega)

theorem membersMatch_encode (fs : TFields) (flds : VFields)
    (hv : validFields fs flds = true) (hnd : (namesOfT fs).Nodup) :
    membersMatch (encodeFields flds) fs flds = true := by
  cases fs with
  | nil =>
      cases flds with
      | nil => simp [membersMatch]
      | cons n2 v vr => simp [validFields] at hv
  | cons n t fr =>
      cases flds with
      | nil => simp [validFields] at hv
      | cons n2 v vr =>
          simp only [validFields, Bool.and_eq_true, decide_eq_true_eq] at hv
          obtain ⟨⟨hn, hbv⟩, hrest⟩ := hv
          subst hn
          simp only [namesOfT, List.nodup_cons] at hnd
          simp only [encodeFields, membersMatch, Bool.and_eq_true, decide_eq_true_eq]
          constructor
          · exact jLookup_head n (encodeJ v) (encodeFields vr)
          · exact membersMatch_extend (encodeFields vr) fr vr n (encodeJ v)
              (membersMatch_encode fr vr hrest hnd.2) hnd.1
termination_by sizeOf fs
decreasing_by all_goals (simp_wf; subst_vars; try simp [Prod.lex_def]; try omega)

theorem encodeJ_ne_jnull (t : Ty) (v : Val) (hnopt : isOptTy t = false)
    (hv : validB t v = true) : encodeJ v ≠ Jval.jnull := by
  cases t <;> cases v <;>
    simp_all [validB, validScalar, encodeJ, isOptTy] <;>
    (try cases ‹ScalarTy›) <;> simp_all [validScalar]

theorem decodeJ_opt_notnull (path : List String) (t : Ty) (j : Jval)
    (h : ¬j = Jval.jnull) :
    decodeJ path (Ty.opt t) j = mapE Val.vsome (decodeJ path t j) := by
  cases j with
  | jnull => exact absurd rfl h
  | jnum n => simp [decodeJ]
  | jbool b => simp [decodeJ]
  | jstr s => simp [decodeJ]
  | jarr es => simp [decodeJ]
  | jobj ms => simp [decodeJ]

mutual

theorem decode_encode (path : List String) (t : Ty) (v : Val)
    (hw : wfT t = true) (hv : validB t v = true) :
    decodeJ path t (encodeJ v) = .ok v := by
  cases t with
  | scalar st =>
      cases st <;> cases v <;>
        simp_all [validB, validScalar, encodeJ, decodeJ, decodeScalar]
  | record fs =>
      cases v <;> simp only [validB, Bool.false_eq_true] at hv
      case vrec flds =>
        simp only [wfT, Bool.and_eq_true, decide_eq_true_eq] at hw
        simp only [encodeJ, decodeJ]
        rw [decode_encode_fields path fs flds (encodeFields flds) hw.2 hv
          (membersMatch_encode fs flds hv hw.1)]
        rfl
  | seq t2 =>
      cases v <;> simp only [validB, Bool.false_eq_true] at hv
      case vseq vs =>
        simp only [wfT] at hw
        simp only [encodeJ, decodeJ]
        rw [decode_encode_elems path t2 vs hw hv]
        rfl
  | union vr =>
      cases v <;> simp only [validB, Bool.false_eq_true] at hv
      case vunion tag w =>
        simp only [wfT] at hw
        simp only [encodeJ, decodeJ, decodeUnionObj, jLookup_head, jLookup_variant_value,
          stringMk_data]
        exact decode_encode_union path vr tag w hw hv
  | opt t2 =>
      cases v <;> simp only [validB, Bool.false_eq_true] at hv
      case vnone =>
        simp [encodeJ, decodeJ]
      case vsome w =>
        simp only [wfT, Bool.and_eq_true, Bool.not_eq_true'] at hw
        simp only [encodeJ]
        rw [decodeJ_opt_notnull path t2 _ (encodeJ_ne_jnull t2 w hw.1 hv)]
        rw [decode_encode path t2 w hw.2 hv]
        rfl
termination_by (sizeOf v, 0)
decreasing_by all_goals (simp_wf; subst_vars; try simp [Prod.lex_def]; try omega)

theorem decode_encode_fields (path : List String) (fs : TFields) (flds : VFields)
    (ms : JMembers) (hw : wfFields fs = true) (hv : validFields fs flds = true)
    (hm : membersMatch ms fs flds = true) :
    decodeFields path fs ms = .ok flds := by
  cases fs with
  | nil =>
      cases flds with
      | nil => simp [decodeFields]
      | cons n2 v vr => simp [validFields] at hv
  | cons n t fr =>
      cases flds with
      | nil => simp [validFields] at hv
      | cons n2 v vr =>
          simp only [validFields, Bool.and_eq_true, decide_eq_true_eq] at hv
          obtain ⟨⟨hn, hbv⟩, hrest⟩ := hv
          subst hn
          simp only [membersMatch, Bool.and_eq_true, decide_eq_true_eq] at hm
          simp only [wfFields, Bool.and_eq_true] at hw
          simp only [decodeFields, hm.1]
          rw [decode_encode (path ++ [n]) t v hw.1 hbv]
          simp only [bindE]
          rw [decode_encode_fields path fr vr ms hw.2 hrest hm.2]
termination_by (sizeOf flds, 0)
decreasing_by all_goals (simp_wf; subst_vars; try simp [Prod.lex_def]; try omega)

theorem decode_encode_elems (path : List String) (t : Ty) (vs : VElems)
    (hw : wfT t = true) (hv : validElems t vs = true) :
    decodeElems path t (encodeElems vs) = .ok vs := by
  cases vs with
  | nil => simp [encodeElems, decodeElems]
  | cons v vs2 =>
      simp only [validElems, Bool.and_eq_true] at hv
      simp only [encodeElems, decodeElems]
      rw [decode_encode path t v hw hv.1]
      simp only [bindE]
      rw [decode_encode_elems path t vs2 hw hv.2]
termination_by (sizeOf vs, 0)
decreasing_by all_goals (simp_wf; subst_vars; try simp [Prod.lex_def]; try omega)

theorem decode_encode_union (path : List String) (vr : TVariants) (tag : String)
    (w : Val) (hw : wfVariants vr = true) (hv : validUnion vr tag w = true) :
    decodeUnion path vr tag (encodeJ w) = .ok (.vunion tag w) := by
  cases vr with
  | nil => simp [validUnion] at hv
  | cons n t vr2 =>
      simp only [validUnion] at hv
      simp only [wfVariants, Bool.and_eq_true] at hw
      by_cases htag : tag = n
      · rw [if_pos htag] at hv
        simp only [decodeUnion, if_pos htag]
        rw [decode_encode path t w hw.1 hv]
        rfl
      · rw [if_neg htag] at hv
        simp only [decodeUnion, if_neg htag]
        exact decode_encode_union path vr2 tag w hw.2 hv
termination_by (sizeOf w, sizeOf vr + 1)
decreasing_by all_goals (simp_wf; subst_vars; try simp [Prod.lex_def]; try omega)

end

/- ### Every character the renderer emits is ASCII -/

def AsciiL (s : List Char) : Prop := ∀ e ∈ s, e.toNat < 128

theorem asciiL_nil : AsciiL [] := by
  intro e he
  simp at he

theorem asciiL_of_all (s : List Char) (h : s.all (fun c => c.toNat < 128) = true) :
    AsciiL s := by
  intro e he
  have h2 := List.all_eq_true.mp h e he
  simpa using h2

theorem asciiL_cons (c : Char) (t : List Char) (hc : c.toNat < 128) (ht : AsciiL t) :
    AsciiL (c :: t) := by
  intro e he
  rcases List.mem_cons.mp he with h | h
  · subst h; exact hc
  · exact ht e h

theorem asciiL_append (a b : List Char) (ha : AsciiL a) (hb : AsciiL b) :
    AsciiL (a ++ b) := by
  intro e he
  rcases List.mem_append.mp he with h | h
  · exact ha e h
  · exact hb e h

theorem hexDigitChar_toNat (d : Nat) (h : d < 16) :
    (hexDigitChar d).toNat = if d < 10 then 48 + d else 87 + d := by
  have hv : (if d < 10 then 48 + d else 87 + d).isValidChar := by
    refine Or.inl ?_
    by_cases h10 : d < 10
    · rw [if_pos h10]; omega
    · rw [if_neg h10]; omega
  rw [hexDigitChar, toNat_ofNat_valid _ hv]

theorem hexDigitChar_ascii (n : Nat) : (hexDigitChar (n % 16)).toNat < 128 := by
  have h16 : n % 16 < 16 := Nat.mod_lt _ (by omega)
  rw [hexDigitChar_toNat _ h16]
  by_cases h10 : n % 16 < 10
  · rw [if_pos h10]; omega
  · rw [if_neg h10]; omega

theorem hex4_ascii (n : Nat) : AsciiL (hex4 n) := by
  rw [hex4]
  exact asciiL_cons _ _ (hexDigitChar_ascii (n / 4096))
    (asciiL_cons _ _ (hexDigitChar_ascii (n / 256))
      (asciiL_cons _ _ (hexDigitChar_ascii (n / 16))
        (asciiL_cons _ _ (hexDigitChar_ascii n) asciiL_nil)))

theorem escapeChar_ascii (c : Char) : AsciiL (escapeChar c) := by
  rw [escapeChar]
  by_cases hq : c = '"'
  · rw [if_pos hq]
    exact asciiL_of_all _ (by decide)
  · rw [if_neg hq]
    by_cases hb : c = '\\'
    · rw [if_pos hb]
      exact asciiL_of_all _ (by decide)
    · rw [if_neg hb]
      by_cases hraw : 32 ≤ c.toNat ∧ c.toNat ≤ 126
      · rw [if_pos hraw]
        exact asciiL_cons _ _ (by omega) asciiL_nil
      · rw [if_neg hraw]
        by_cases h16 : c.toNat < 65536
        · rw [if_pos h16]
          exact asciiL_cons _ _ (by decide)
            (asciiL_cons _ _ (by decide) (hex4_ascii c.toNat))
        · rw [if_neg h16]
          refine asciiL_cons _ _ (by decide) (asciiL_cons _ _ (by decide)
            (asciiL_append _ _ (hex4_ascii _) ?_))
          exact asciiL_cons _ _ (by decide) (asciiL_cons _ _ (by decide) (hex4_ascii _))

theorem escapeList_ascii (s : List Char) : AsciiL (escapeList s) := by
  induction s with
  | nil => exact asciiL_nil
  | cons c s ih =>
      rw [escapeList]
      exact asciiL_append _ _ (escapeChar_ascii c) ih

theorem renderString_ascii (s : List Char) : AsciiL (renderString s) := by
  rw [renderString]
  exact asciiL_cons _ _ (by decide)
    (asciiL_append _ _ (escapeList_ascii s) (asciiL_of_all _ (by decide)))

theorem natChars_ascii (n : Nat) : AsciiL (natChars n) := by
  intro e he
  have h := natChars_all_digits n e he
  simp only [isDigitC, Bool.and_eq_true, decide_eq_true_eq] at h
  omega

theorem intChars_ascii (i : Int) : AsciiL (intChars i) := by
  rw [intChars]
  by_cases hi : i < 0
  · rw [if_pos hi]
    exact asciiL_cons _ _ (by decide) (natChars_ascii _)
  · rw [if_neg hi]
    exact natChars_ascii _

theorem nlIndent_ascii (p : Bool) (lvl : Nat) : AsciiL (nlIndent p lvl) := by
  intro e he
  have h := nlIndent_ws p lvl e he
  simp only [isWsC, Bool.or_eq_true, decide_eq_true_eq] at h
  omega

theorem colonSep_ascii (p : Bool) : AsciiL (colonSep p) := by
  cases p <;> (rw [colonSep]; exact asciiL_of_all _ (by decide))

mutual

theorem renderV_ascii (p : Bool) (lvl : Nat) (j : Jval) : AsciiL (renderV p lvl j) := by
  cases j with
  | jnum i =>
      rw [show renderV p lvl (Jval.jnum i) = intChars i from rfl]
      exact intChars_ascii i
  | jbool b =>
      cases b
      · rw [show renderV p lvl (Jval.jbool false) = ['f', 'a', 'l', 's', 'e'] from rfl]
        exact asciiL_of_all _ (by decide)
      · rw [show renderV p lvl (Jval.jbool true) = ['t', 'r', 'u', 'e'] from rfl]
        exact asciiL_of_all _ (by decide)
  | jnull =>
      rw [show renderV p lvl Jval.jnull = ['n', 'u', 'l', 'l'] from rfl]
      exact asciiL_of_all _ (by decide)
  | jstr s =>
      rw [show renderV p lvl (Jval.jstr s) = renderString s from rfl]
      exact renderString_ascii s
  | jarr es =>
      cases es with
      | nil =>
          rw [show renderV p lvl (Jval.jarr JElems.nil) = ['[', ']'] from rfl]
          exact asciiL_of_all _ (by decide)
      | cons v es2 =>
          rw [show renderV p lvl (Jval.jarr (JElems.cons v es2)) =
            '[' :: (nlIndent p (lvl + 1) ++ renderV p (lvl + 1) v ++
              renderElems p (lvl + 1) es2 ++ nlIndent p lvl ++ [']']) from rfl]
          refine asciiL_cons _ _ (by decide) ?_
          refine asciiL_append _ _ ?_ (asciiL_of_all _ (by decide))
          refine asciiL_append _ _ ?_ (nlIndent_ascii p lvl)
          refine asciiL_append _ _ ?_ (renderElems_ascii p (lvl + 1) es2)
          exact asciiL_append _ _ (nlIndent_ascii p (lvl + 1)) (renderV_ascii p (lvl + 1) v)
  | jobj ms =>
      cases ms with
      | nil =>
          rw [show renderV p lvl (Jval.jobj JMembers.nil) = ['\x7b', '\x7d'] from rfl]
          exact asciiL_of_all _ (by decide)
      | cons k v ms2 =>
          rw [show renderV p lvl (Jval.jobj (JMembers.cons k v ms2)) =
            '\x7b' :: (nlIndent p (lvl + 1) ++ renderString k.data ++ colonSep p ++
              renderV p (lvl + 1) v ++ renderMembers p (lvl + 1) ms2 ++
              nlIndent p lvl ++ ['\x7d']) from rfl]
          refine asciiL_cons _ _ (by decide) ?_
          refine asciiL_append _ _ ?_ (asciiL_of_all _ (by decide))
          refine asciiL_append _ _ ?_ (nlIndent_ascii p lvl)
          refine asciiL_append _ _ ?_ (renderMembers_ascii p (lvl + 1) ms2)
          refine asciiL_append _ _ ?_ (renderV_ascii p (lvl + 1) v)
          refine asciiL_append _ _ ?_ (colonSep_ascii p)
          exact asciiL_append _ _ (nlIndent_ascii p (lvl + 1)) (renderString_ascii k.data)
termination_by (sizeOf j, 0)
decreasing_by all_goals (simp_wf; subst_vars; try simp [Prod.lex_def]; try omega)

theorem renderElems_ascii (p : Bool) (lvl : Nat) (es : JElems) :
    AsciiL (renderElems p lvl es) := by
  cases es with
  | nil =>
      rw [show renderElems p lvl JElems.nil = [] from rfl]
      exact asciiL_nil
  | cons v es2 =>
      rw [show renderElems p lvl (JElems.cons v es2) =
        ',' :: (nlIndent p lvl ++ renderV p lvl v ++ renderElems p lvl es2) from rfl]
      refine asciiL_cons _ _ (by decide) ?_
      refine asciiL_append _ _ ?_ (renderElems_ascii p lvl es2)
      exact asciiL_append _ _ (nlIndent_ascii p lvl) (renderV_ascii p lvl v)
termination_by (sizeOf es, 1)
decreasing_by all_goals (simp_wf; subst_vars; try simp [Prod.lex_def]; try omega)

theorem renderMembers_ascii (p : Bool) (lvl : Nat) (ms : JMembers) :
    AsciiL (renderMembers p lvl ms) := by
  cases ms with
  | nil =>
      rw [show renderMembers p lvl JMembers.nil = [] from rfl]
      exact asciiL_nil
  | cons k v ms2 =>
      rw [show renderMembers p lvl (JMembers.cons k v ms2) =
        ',' :: (nlIndent p lvl ++ renderString k.data ++ colonSep p ++
          renderV p lvl v ++ renderMembers p lvl ms2) from rfl]
      refine asciiL_cons _ _ (by decide) ?_
      refine asciiL_append _ _ ?_ (renderMembers_ascii p lvl ms2)
      refine asciiL_append _ _ ?_ (renderV_ascii p lvl v)
      refine asciiL_append _ _ ?_ (colonSep_ascii p)
      exact asciiL_append _ _ (nlIndent_ascii p lvl) (renderString_ascii k.data)
termination_by (sizeOf ms, 1)
decreasing_by all_goals (simp_wf; subst_vars; try simp [Prod.lex_def]; try omega)

end

/- ### The serialization module proper: sdk/etdump/serialize.py.
Files live in per-call temporary directories; a path is a pair of the directory
and the file name, mirroring os.path.join(d, name).  The filesystem is a history
of writes; tempfile.TemporaryDirectory's scope guarantee is the withTempDir
combinator, which erases the directory from the final state on every exit path. -/

abbrev FPath : Type := String × String

instance : DecidableEq FPath := by
  unfold FPath
  infer_instance

abbrev FS : Type := List (FPath × List Char)

def fsRead : FS → FPath → Option (List Char)
  | [], _ => none
  | (q, c) :: rest, p => if q = p then some c else fsRead rest p

def fsWrite (fs : FS) (p : FPath) (c : List Char) : FS := (p, c) :: fs

def eraseDir (d : String) : FS → FS
  | [] => []
  | (q, c) :: rest => if q.1 = d then eraseDir d rest else (q, c) :: eraseDir d rest

def M (α : Type) : Type := FS → Except SerError α × FS

def mBind (x : M α) (f : α → M β) : M β := fun fs =>
  match x fs with
  | (.ok a, fs2) => f a fs2
  | (.error e, fs2) => (.error e, fs2)

def liftE (x : Except SerError α) : M α := fun fs => (x, fs)

def mWrite (p : FPath) (c : List Char) : M Unit := fun fs => (.ok (), fsWrite fs p c)

def mRead (p : FPath) : M (List Char) := fun fs =>
  match fsRead fs p with
  | some c => (.ok c, fs)
  | none => (.error (.fileNotFound p), fs)

def withTempDir (d : String) (body : M α) : M α := fun fs =>
  ((body fs).1, eraseDir d (body fs).2)

/- The prefix of schema files used for etdump (source lines 24 to 26). -/

def ETDUMP_SCHEMA_NAME : String := "etdump_schema"

def ETDUMP_FLATCC_SCHEMA_NAME : String := "etdump_schema_flatcc"

def SCALAR_TYPE_SCHEMA_NAME : String := "scalar_type"

/-- Modelled from the spec: pkg_resources.resource_string, the schema resource
provider.  The packaged schema text files are not part of the sources under
verification; the provider exposes exactly three resources, one per schema
variant plus the shared scalar-type schema, each under its packaged file name,
and fails for any other name.  The static resource bytes are the parameter
content. -/
def resource_string (content : String → List Char) (resource_name : String) :
    Except SerError (List Char) :=
  if resource_name = ETDUMP_SCHEMA_NAME ++ ".fbs" ∨
     resource_name = ETDUMP_FLATCC_SCHEMA_NAME ++ ".fbs" ∨
     resource_name = SCALAR_TYPE_SCHEMA_NAME ++ ".fbs"
  then .ok (content resource_name)
  else .error (.resourceNotFound resource_name)

/- _write_schema (source lines 29 to 34): stage the named schema text at
os.path.join(d, schema_name + ".fbs"), with the bytes obtained from
pkg_resources under the same name. -/

def _write_schema (content : String → List Char) (d : String) (schema_name : String) :
    M Unit :=
  mBind (liftE (resource_string content (schema_name ++ ".fbs")))
    (fun bytes => mWrite (d, schema_name ++ ".fbs") bytes)

/- _serialize_from_etdump_to_json (source lines 37 to 38):
json.dumps(etdump, cls=_DataclassEncoder, indent=4). -/

def _serialize_from_etdump_to_json (etdump : Val) : List Char :=
  renderV true 0 (encodeJ etdump)

/-- Modelled from the spec: _json_to_dataclass of
executorch.exir._serialize._dataclass, the schema-directed reconstruction of a
typed record from parsed JSON; the target dataclass is abstracted as the schema
descriptor T. -/
def _json_to_dataclass (T : Ty) (j : Jval) : Except SerError Val := decodeJ [] T j

/- _deserialize_from_json_to_etdump (source lines 42 to 44):
json.loads then _json_to_dataclass against the legacy ETDump record type. -/

def _deserialize_from_json_to_etdump (T : Ty) (etdump_json : List Char) :
    Except SerError Val :=
  match jsonLoads etdump_json with
  | some j => _json_to_dataclass T j
  | none => .error .jsonDecodeError

/- The external compiler boundary: bindings.flatc_compile / flatc_decompile take
the output directory and the staged schema and payload paths, and act on the
filesystem. -/

def asciiEncode (s : List Char) : Except SerError (List Char) :=
  if s.all (fun c => c.toNat < 128) then .ok s else .error .unicodeEncodeError

def FlatcFn : Type := String → FPath → FPath → M Unit

/- _convert_to_flatbuffer (source lines 47 to 62). -/

def _convert_to_flatbuffer (content : String → List Char) (flatc_compile : FlatcFn)
    (d : String) (etdump_json : List Char) : M (List Char) :=
  withTempDir d (
    mBind (_write_schema content d ETDUMP_SCHEMA_NAME) (fun _ =>
    mBind (_write_schema content d SCALAR_TYPE_SCHEMA_NAME) (fun _ =>
    mBind (liftE (asciiEncode etdump_json)) (fun a =>
    mBind (mWrite (d, ETDUMP_SCHEMA_NAME ++ ".json") a) (fun _ =>
    mBind (flatc_compile d (d, ETDUMP_SCHEMA_NAME ++ ".fbs") (d, ETDUMP_SCHEMA_NAME ++ ".json"))
      (fun _ => mRead (d, ETDUMP_SCHEMA_NAME ++ ".etdp")))))))

/- _convert_from_flatbuffer (source lines 65 to 78). -/

def _convert_from_flatbuffer (content : String → List Char) (flatc_decompile : FlatcFn)
    (d : String) (etdump_flatbuffer : List Char) : M (List Char) :=
  withTempDir d (
    mBind (_write_schema content d ETDUMP_SCHEMA_NAME) (fun _ =>
    mBind (_write_schema content d SCALAR_TYPE_SCHEMA_NAME) (fun _ =>
    mBind (mWrite (d, "schema.bin") etdump_flatbuffer) (fun _ =>
    mBind (flatc_decompile d (d, ETDUMP_SCHEMA_NAME ++ ".fbs") (d, "schema.bin"))
      (fun _ => mRead (d, "schema.json"))))))

/- serialize_to_etdump / deserialize_from_etdump (source lines 81 to 104). -/

def serialize_to_etdump (content : String → List Char) (flatc_compile : FlatcFn)
    (d : String) (etdump : Val) : M (List Char) :=
  _convert_to_flatbuffer content flatc_compile d (_serialize_from_etdump_to_json etdump)

def deserialize_from_etdump (content : String → List Char) (flatc_decompile : FlatcFn)
    (d : String) (T : Ty) (data : List Char) : M Val :=
  mBind (_convert_from_flatbuffer content flatc_decompile d data)
    (fun j => liftE (_deserialize_from_json_to_etdump T j))

/- _deserialize_from_json_to_etdump_flatcc (source lines 113 to 115). -/

def _deserialize_from_json_to_etdump_flatcc (T : Ty) (etdump_json : List Char) :
    Except SerError Val :=
  match jsonLoads etdump_json with
  | some j => _json_to_dataclass T j
  | none => .error .jsonDecodeError

/- _convert_to_flatcc (source lines 118 to 133). -/

def _convert_to_flatcc (content : String → List Char) (flatc_compile : FlatcFn)
    (d : String) (etdump_json : List Char) : M (List Char) :=
  withTempDir d (
    mBind (_write_schema content d ETDUMP_FLATCC_SCHEMA_NAME) (fun _ =>
    mBind (_write_schema content d SCALAR_TYPE_SCHEMA_NAME) (fun _ =>
    mBind (liftE (asciiEncode etdump_json)) (fun a =>
    mBind (mWrite (d, ETDUMP_FLATCC_SCHEMA_NAME ++ ".json") a) (fun _ =>
    mBind (flatc_compile d (d, ETDUMP_FLATCC_SCHEMA_NAME ++ ".fbs")
        (d, ETDUMP_FLATCC_SCHEMA_NAME ++ ".json"))
      (fun _ => mRead (d, ETDUMP_FLATCC_SCHEMA_NAME ++ ".etdp")))))))

/- _convert_from_flatcc (source lines 136 to 149). -/

def _convert_from_flatcc (content : String → List Char) (flatc_decompile : FlatcFn)
    (d : String) (etdump_flatbuffer : List Char) : M (List Char) :=
  withTempDir d (
    mBind (_write_schema content d ETDUMP_FLATCC_SCHEMA_NAME) (fun _ =>
    mBind (_write_schema content d SCALAR_TYPE_SCHEMA_NAME) (fun _ =>
    mBind (mWrite (d, "schema.bin") etdump_flatbuffer) (fun _ =>
    mBind (flatc_decompile d (d, ETDUMP_FLATCC_SCHEMA_NAME ++ ".fbs") (d, "schema.bin"))
      (fun _ => mRead (d, "schema.json"))))))

/- serialize_to_etdump_flatcc / deserialize_from_etdump_flatcc
(source lines 152 to 175). -/

def serialize_to_etdump_flatcc (content : String → List Char) (flatc_compile : FlatcFn)
    (d : String) (etdump : Val) : M (List Char) :=
  _convert_to_flatcc content flatc_compile d (_serialize_from_etdump_to_json etdump)

def deserialize_from_etdump_flatcc (content : String → List Char)
    (flatc_decompile : FlatcFn) (d : String) (T : Ty) (data : List Char) : M Val :=
  mBind (_convert_from_flatcc content flatc_decompile d data)
    (fun j => liftE (_deserialize_from_json_to_etdump_flatcc T j))

/- ### Stand-ins for the external compiler, used to state the claims that assume
a correctly functioning compiler.  A stand-in derives its deterministic output
file name from its input names, as the real flatc does: the base name of the
schema (compile) or of the binary payload (decompile) with the fixed extension. -/

def changeExt (name : String) (newExt : String) : String :=
  String.mk (name.data.take (name.data.length - 4) ++ newExt.data)

def flatcCompileStandin (f : List Char → List Char) : FlatcFn :=
  fun d schema_path json_path => fun fs =>
    match fsRead fs json_path with
    | some j => (.ok (), fsWrite fs (d, changeExt schema_path.2 ".etdp") (f j))
    | none => (.error .schemaCompiler, fs)

def flatcDecompileStandin (g : List Char → List Char) : FlatcFn :=
  fun d _schema_path bin_path => fun fs =>
    match fsRead fs bin_path with
    | some b => (.ok (), fsWrite fs (d, changeExt bin_path.2 ".json") (g b))
    | none => (.error .schemaCompiler, fs)

/- ### Facts about the staged runs -/

theorem asciiEncode_json (x : Val) :
    asciiEncode (_serialize_from_etdump_to_json x) =
      .ok (_serialize_from_etdump_to_json x) := by
  have H : (_serialize_from_etdump_to_json x).all (fun c => c.toNat < 128) = true := by
    rw [List.all_eq_true]
    intro c hc
    simpa using renderV_ascii true 0 (encodeJ x) c hc
  rw [asciiEncode, if_pos H]

theorem fsRead_write_hit (fs : FS) (p : FPath) (c : List Char) :
    fsRead (fsWrite fs p c) p = some c := by
  simp [fsRead, fsWrite]

theorem fsRead_write_miss (fs : FS) (p q : FPath) (c : List Char) (h : ¬q = p) :
    fsRead (fsWrite fs q c) p = fsRead fs p := by
  simp [fsRead, fsWrite, h]

theorem fsRead_eraseDir (d : String) (n : String) (fs : FS) :
    fsRead (eraseDir d fs) (d, n) = none := by
  induction fs with
  | nil => rfl
  | cons e rest ih =>
      rcases e with ⟨q, c⟩
      rw [eraseDir]
      by_cases hq : q.1 = d
      · rw [if_pos hq]
        exact ih
      · rw [if_neg hq]
        rw [fsRead, if_neg (fun he => hq (by rw [he]))]
        exact ih

theorem resource_etdump (content : String → List Char) :
    resource_string content (ETDUMP_SCHEMA_NAME ++ ".fbs") =
      .ok (content (ETDUMP_SCHEMA_NAME ++ ".fbs")) := by
  rw [resource_string, if_pos (Or.inl rfl)]

theorem resource_flatcc (content : String → List Char) :
    resource_string content (ETDUMP_FLATCC_SCHEMA_NAME ++ ".fbs") =
      .ok (content (ETDUMP_FLATCC_SCHEMA_NAME ++ ".fbs")) := by
  rw [resource_string, if_pos (Or.inr (Or.inl rfl))]

theorem resource_scalar (content : String → List Char) :
    resource_string content (SCALAR_TYPE_SCHEMA_NAME ++ ".fbs") =
      .ok (content (SCALAR_TYPE_SCHEMA_NAME ++ ".fbs")) := by
  rw [resource_string, if_pos (Or.inr (Or.inr rfl))]

theorem changeExt_etdump :
    changeExt (ETDUMP_SCHEMA_NAME ++ ".fbs") ".etdp" = ETDUMP_SCHEMA_NAME ++ ".etdp" := by
  decide

theorem changeExt_flatcc :
    changeExt (ETDUMP_FLATCC_SCHEMA_NAME ++ ".fbs") ".etdp" =
      ETDUMP_FLATCC_SCHEMA_NAME ++ ".etdp" := by
  decide

theorem changeExt_bin : changeExt "schema.bin" ".json" = "schema.json" := by
  decide

theorem convert_to_flatbuffer_standin (content : String → List Char)
    (f : List Char → List Char) (d : String) (j a : List Char) (fs : FS)
    (ha : asciiEncode j = .ok a) :
    (_convert_to_flatbuffer content (flatcCompileStandin f) d j fs).1 = .ok (f a) := by
  simp only [_convert_to_flatbuffer, withTempDir, _write_schema, mBind, liftE, mWrite,
    mRead, flatcCompileStandin, resource_etdump, resource_scalar, ha, fsRead_write_hit,
    changeExt_etdump]

theorem convert_to_flatcc_standin (content : String → List Char)
    (f : List Char → List Char) (d : String) (j a : List Char) (fs : FS)
    (ha : asciiEncode j = .ok a) :
    (_convert_to_flatcc content (flatcCompileStandin f) d j fs).1 = .ok (f a) := by
  simp only [_convert_to_flatcc, withTempDir, _write_schema, mBind, liftE, mWrite,
    mRead, flatcCompileStandin, resource_flatcc, resource_scalar, ha, fsRead_write_hit,
    changeExt_flatcc]

theorem convert_from_flatbuffer_standin (content : String → List Char)
    (g : List Char → List Char) (d : String) (b : List Char) (fs : FS) :
    (_convert_from_flatbuffer content (flatcDecompileStandin g) d b fs).1 = .ok (g b) := by
  simp only [_convert_from_flatbuffer, withTempDir, _write_schema, mBind, liftE, mWrite,
    mRead, flatcDecompileStandin, resource_etdump, resource_scalar, fsRead_write_hit,
    changeExt_bin]

theorem convert_from_flatcc_standin (content : String → List Char)
    (g : List Char → List Char) (d : String) (b : List Char) (fs : FS) :
    (_convert_from_flatcc content (flatcDecompileStandin g) d b fs).1 = .ok (g b) := by
  simp only [_convert_from_flatcc, withTempDir, _write_schema, mBind, liftE, mWrite,
    mRead, flatcDecompileStandin, resource_flatcc, resource_scalar, fsRead_write_hit,
    changeExt_bin]

theorem serialize_etdump_standin (content : String → List Char)
    (f : List Char → List Char) (d : String) (x : Val) (fs : FS) :
    (serialize_to_etdump content (flatcCompileStandin f) d x fs).1 =
      .ok (f (_serialize_from_etdump_to_json x)) := by
  rw [serialize_to_etdump]
  exact convert_to_flatbuffer_standin content f d _ _ fs (asciiEncode_json x)

theorem serialize_flatcc_standin (content : String → List Char)
    (f : List Char → List Char) (d : String) (x : Val) (fs : FS) :
    (serialize_to_etdump_flatcc content (flatcCompileStandin f) d x fs).1 =
      .ok (f (_serialize_from_etdump_to_json x)) := by
  rw [serialize_to_etdump_flatcc]
  exact convert_to_flatcc_standin content f d _ _ fs (asciiEncode_json x)

theorem deserialize_etdump_standin (content : String → List Char)
    (g : List Char → List Char) (d : String) (T : Ty) (b : List Char) (fs : FS) :
    (deserialize_from_etdump content (flatcDecompileStandin g) d T b fs).1 =
      _deserialize_from_json_to_etdump T (g b) := by
  rw [deserialize_from_etdump]
  have h := convert_from_flatbuffer_standin content g d b fs
  rcases hc : _convert_from_flatbuffer content (flatcDecompileStandin g) d b fs with ⟨r, fs2⟩
  rw [hc] at h
  simp only at h
  subst h
  simp only [mBind, hc, liftE]

theorem deserialize_flatcc_standin (content : String → List Char)
    (g : List Char → List Char) (d : String) (T : Ty) (b : List Char) (fs : FS) :
    (deserialize_from_etdump_flatcc content (flatcDecompileStandin g) d T b fs).1 =
      _deserialize_from_json_to_etdump_flatcc T (g b) := by
  rw [deserialize_from_etdump_flatcc]
  have h := convert_from_flatcc_standin content g d b fs
  rcases hc : _convert_from_flatcc content (flatcDecompileStandin g) d b fs with ⟨r, fs2⟩
  rw [hc] at h
  simp only at h
  subst h
  simp only [mBind, hc, liftE]

theorem deserialize_json_roundtrip (T : Ty) (x : Val) (hw : wfT T = true)
    (hv : validB T x = true) :
    _deserialize_from_json_to_etdump T (_serialize_from_etdump_to_json x) = .ok x := by
  rw [_deserialize_from_json_to_etdump, _serialize_from_etdump_to_json, jsonLoads_render]
  exact decode_encode [] T x hw hv

theorem deserialize_json_flatcc_roundtrip (T : Ty) (x : Val) (hw : wfT T = true)
    (hv : validB T x = true) :
    _deserialize_from_json_to_etdump_flatcc T (_serialize_from_etdump_to_json x) = .ok x := by
  rw [_deserialize_from_json_to_etdump_flatcc, _serialize_from_etdump_to_json,
    jsonLoads_render]
  exact decode_encode [] T x hw hv

/- ### Workspace teardown: nothing under the temporary directory survives a call -/

theorem convert_to_flatbuffer_snd (content : String → List Char) (flatc : FlatcFn)
    (d : String) (j : List Char) (fs : FS) :
    ∃ fs2, (_convert_to_flatbuffer content flatc d j fs).2 = eraseDir d fs2 :=
  ⟨_, rfl⟩

theorem convert_from_flatbuffer_snd (content : String → List Char) (flatc : FlatcFn)
    (d : String) (b : List Char) (fs : FS) :
    ∃ fs2, (_convert_from_flatbuffer content flatc d b fs).2 = eraseDir d fs2 :=
  ⟨_, rfl⟩

theorem convert_to_flatcc_snd (content : String → List Char) (flatc : FlatcFn)
    (d : String) (j : List Char) (fs : FS) :
    ∃ fs2, (_convert_to_flatcc content flatc d j fs).2 = eraseDir d fs2 :=
  ⟨_, rfl⟩

theorem convert_from_flatcc_snd (content : String → List Char) (flatc : FlatcFn)
    (d : String) (b : List Char) (fs : FS) :
    ∃ fs2, (_convert_from_flatcc content flatc d b fs).2 = eraseDir d fs2 :=
  ⟨_, rfl⟩

theorem serialize_etdump_cleanup (content : String → List Char) (flatc : FlatcFn)
    (d : String) (x : Val) (fs : FS) (n : String) :
    fsRead ((serialize_to_etdump content flatc d x fs).2) (d, n) = none := by
  obtain ⟨fs2, h⟩ := convert_to_flatbuffer_snd content flatc d
    (_serialize_from_etdump_to_json x) fs
  rw [serialize_to_etdump, h]
  exact fsRead_eraseDir d n fs2

theorem serialize_flatcc_cleanup (content : String → List Char) (flatc : FlatcFn)
    (d : String) (x : Val) (fs : FS) (n : String) :
    fsRead ((serialize_to_etdump_flatcc content flatc d x fs).2) (d, n) = none := by
  obtain ⟨fs2, h⟩ := convert_to_flatcc_snd content flatc d
    (_serialize_from_etdump_to_json x) fs
  rw [serialize_to_etdump_flatcc, h]
  exact fsRead_eraseDir d n fs2

theorem deserialize_etdump_cleanup (content : String → List Char) (flatc : FlatcFn)
    (d : String) (T : Ty) (b : List Char) (fs : FS) (n : String) :
    fsRead ((deserialize_from_etdump content flatc d T b fs).2) (d, n) = none := by
  obtain ⟨fs2, h⟩ := convert_from_flatbuffer_snd content flatc d b fs
  rw [deserialize_from_etdump]
  rcases hc : _convert_from_flatbuffer content flatc d b fs with ⟨r, fs3⟩
  rw [hc] at h
  simp only at h
  subst h
  cases r with
  | ok a =>
      simp only [mBind, hc, liftE]
      exact fsRead_eraseDir d n fs2
  | error e =>
      simp only [mBind, hc]
      exact fsRead_eraseDir d n fs2

theorem deserialize_flatcc_cleanup (content : String → List Char) (flatc : FlatcFn)
    (d : String) (T : Ty) (b : List Char) (fs : FS) (n : String) :
    fsRead ((deserialize_from_etdump_flatcc content flatc d T b fs).2) (d, n) = none := by
  obtain ⟨fs2, h⟩ := convert_from_flatcc_snd content flatc d b fs
  rw [deserialize_from_etdump_flatcc]
  rcases hc : _convert_from_flatcc content flatc d b fs with ⟨r, fs3⟩
  rw [hc] at h
  simp only at h
  subst h
  cases r with
  | ok a =>
      simp only [mBind, hc, liftE]
      exact fsRead_eraseDir d n fs2
  | error e =>
      simp only [mBind, hc]
      exact fsRead_eraseDir d n fs2

/- ### Probe compilers that verify the staged file names and contents.
A probe succeeds exactly when it is handed the documented schema and payload
paths with the expected staged bytes; the conversion then fails at the read of
the compiler output, exposing the output path in the error. -/

def checkedCompile (expSchema expJson : String) (a : List Char) : FlatcFn :=
  fun d sp jp => fun fs =>
    if sp = (d, expSchema) ∧ jp = (d, expJson) ∧ fsRead fs jp = some a ∧
       (fsRead fs sp).isSome = true ∧
       (fsRead fs (d, SCALAR_TYPE_SCHEMA_NAME ++ ".fbs")).isSome = true
    then (.ok (), fs) else (.error .schemaCompiler, fs)

def checkedDecompile (expSchema : String) (b : List Char) : FlatcFn :=
  fun d sp bp => fun fs =>
    if sp = (d, expSchema) ∧ bp = (d, "schema.bin") ∧ fsRead fs bp = some b ∧
       (fsRead fs sp).isSome = true ∧
       (fsRead fs (d, SCALAR_TYPE_SCHEMA_NAME ++ ".fbs")).isSome = true
    then (.ok (), fs) else (.error .schemaCompiler, fs)

theorem pairNe (d : String) (a b : String) (h : ¬a = b) : ¬((d, a) : FPath) = (d, b) :=
  fun he => h (congrArg Prod.snd he)

theorem fpathMkEq (d1 n1 d2 n2 : String) :
    (((d1, n1) : FPath) = (d2, n2)) = (d1 = d2 ∧ n1 = n2) :=
  Prod.mk.injEq d1 n1 d2 n2

theorem nmEtdumpFbs : ETDUMP_SCHEMA_NAME ++ ".fbs" = "etdump_schema.fbs" := rfl

theorem nmEtdumpJson : ETDUMP_SCHEMA_NAME ++ ".json" = "etdump_schema.json" := rfl

theorem nmEtdumpEtdp : ETDUMP_SCHEMA_NAME ++ ".etdp" = "etdump_schema.etdp" := rfl

theorem nmScalarFbs : SCALAR_TYPE_SCHEMA_NAME ++ ".fbs" = "scalar_type.fbs" := rfl

theorem nmFlatccFbs : ETDUMP_FLATCC_SCHEMA_NAME ++ ".fbs" = "etdump_schema_flatcc.fbs" := rfl

theorem nmFlatccJson :
    ETDUMP_FLATCC_SCHEMA_NAME ++ ".json" = "etdump_schema_flatcc.json" := rfl

theorem nmFlatccEtdp :
    ETDUMP_FLATCC_SCHEMA_NAME ++ ".etdp" = "etdump_schema_flatcc.etdp" := rfl

theorem convert_to_flatbuffer_naming (content : String → List Char) (d : String)
    (j a : List Char) (fs : FS) (ha : asciiEncode j = .ok a)
    (hfresh : ∀ n, fsRead fs (d, n) = none) :
    (_convert_to_flatbuffer content
        (checkedCompile (ETDUMP_SCHEMA_NAME ++ ".fbs") (ETDUMP_SCHEMA_NAME ++ ".json") a)
        d j fs).1 =
      .error (.fileNotFound (d, ETDUMP_SCHEMA_NAME ++ ".etdp")) := by
  simp [_convert_to_flatbuffer, withTempDir, _write_schema, mBind, liftE, mWrite,
    mRead, checkedCompile, resource_string, ETDUMP_SCHEMA_NAME, SCALAR_TYPE_SCHEMA_NAME,
    ETDUMP_FLATCC_SCHEMA_NAME, ha, fsRead, fsWrite, fpathMkEq, hfresh]

theorem convert_to_flatcc_naming (content : String → List Char) (d : String)
    (j a : List Char) (fs : FS) (ha : asciiEncode j = .ok a)
    (hfresh : ∀ n, fsRead fs (d, n) = none) :
    (_convert_to_flatcc content
        (checkedCompile (ETDUMP_FLATCC_SCHEMA_NAME ++ ".fbs")
          (ETDUMP_FLATCC_SCHEMA_NAME ++ ".json") a) d j fs).1 =
      .error (.fileNotFound (d, ETDUMP_FLATCC_SCHEMA_NAME ++ ".etdp")) := by
  simp [_convert_to_flatcc, withTempDir, _write_schema, mBind, liftE, mWrite,
    mRead, checkedCompile, resource_string, ETDUMP_SCHEMA_NAME, SCALAR_TYPE_SCHEMA_NAME,
    ETDUMP_FLATCC_SCHEMA_NAME, ha, fsRead, fsWrite, fpathMkEq, hfresh]

theorem convert_from_flatbuffer_naming (content : String → List Char) (d : String)
    (b : List Char) (fs : FS) (hfresh : ∀ n, fsRead fs (d, n) = none) :
    (_convert_from_flatbuffer content
        (checkedDecompile (ETDUMP_SCHEMA_NAME ++ ".fbs") b) d b fs).1 =
      .error (.fileNotFound (d, "schema.json")) := by
  simp [_convert_from_flatbuffer, withTempDir, _write_schema, mBind, liftE, mWrite,
    mRead, checkedDecompile, resource_string, ETDUMP_SCHEMA_NAME, SCALAR_TYPE_SCHEMA_NAME,
    ETDUMP_FLATCC_SCHEMA_NAME, fsRead, fsWrite, fpathMkEq, hfresh]

theorem convert_from_flatcc_naming (content : String → List Char) (d : String)
    (b : List Char) (fs : FS) (hfresh : ∀ n, fsRead fs (d, n) = none) :
    (_convert_from_flatcc content
        (checkedDecompile (ETDUMP_FLATCC_SCHEMA_NAME ++ ".fbs") b) d b fs).1 =
      .error (.fileNotFound (d, "schema.json")) := by
  simp [_convert_from_flatcc, withTempDir, _write_schema, mBind, liftE, mWrite,
    mRead, checkedDecompile, resource_string, ETDUMP_SCHEMA_NAME, SCALAR_TYPE_SCHEMA_NAME,
    ETDUMP_FLATCC_SCHEMA_NAME, fsRead, fsWrite, fpathMkEq, hfresh]

/- ### Field-name bookkeeping: the encoder emits record members in declaration
order -/

def memberNames : JMembers → List String
  | .nil => []
  | .cons k _ ms => k :: memberNames ms

def vfieldNames : VFields → List String
  | .nil => []
  | .cons n _ fs => n :: vfieldNames fs

theorem encode_keys (flds : VFields) :
    memberNames (encodeFields flds) = vfieldNames flds := by
  match flds with
  | .nil => rfl
  | .cons n v fs =>
      simp only [encodeFields, memberNames, vfieldNames]
      rw [encode_keys fs]
termination_by sizeOf flds

/- ### The first missing required field, in declaration order, is the one
reported -/

def tfApp : TFields → TFields → TFields
  | .nil, gs => gs
  | .cons n t fs, gs => .cons n t (tfApp fs gs)

theorem bindE_ok (a : α) (f : α → Except SerError β) : bindE (.ok a) f = f a := rfl

theorem bindE_err (e : SerError) (f : α → Except SerError β) :
    bindE (.error e) f = .error e := rfl

theorem decodeFields_append_err (path : List String) (pre post : TFields)
    (ms : JMembers) (e : SerError) (r : VFields)
    (hpre : decodeFields path pre ms = .ok r)
    (hpost : decodeFields path post ms = .error e) :
    decodeFields path (tfApp pre post) ms = .error e := by
  match pre with
  | .nil => simpa [tfApp] using hpost
  | .cons k t fr =>
      simp only [decodeFields] at hpre
      simp only [tfApp, decodeFields]
      cases hk : jLookup ms k with
      | none =>
          simp only [hk] at hpre ⊢
          by_cases ho : isOptTy t = true
          · rw [if_pos ho] at hpre
            rw [if_pos ho]
            cases hr : decodeFields path fr ms with
            | ok r2 =>
                rw [decodeFields_append_err path fr post ms e r2 hr hpost, bindE_err]
            | error e2 => rw [hr, bindE_err] at hpre; exact absurd hpre (by simp)
          · rw [if_neg ho] at hpre
            exact absurd hpre (by simp)
      | some jv =>
          simp only [hk] at hpre ⊢
          cases hd : decodeJ (path ++ [k]) t jv with
          | ok v =>
              rw [hd, bindE_ok] at hpre
              rw [bindE_ok]
              cases hr : decodeFields path fr ms with
              | ok r2 =>
                  rw [decodeFields_append_err path fr post ms e r2 hr hpost, bindE_err]
              | error e2 => rw [hr, bindE_err] at hpre; exact absurd hpre (by simp)
          | error e2 => rw [hd, bindE_err] at hpre; exact absurd hpre (by simp)
termination_by sizeOf pre

theorem decodeFields_head_missing (path : List String) (n : String) (t : Ty)
    (post : TFields) (ms : JMembers) (hmiss : jLookup ms n = none)
    (hnopt : isOptTy t = false) :
    decodeFields path (.cons n t post) ms = .error (.missingField (path ++ [n])) := by
  simp only [decodeFields, hmiss, hnopt]
  simp

theorem decodeJ_record_first_missing (path : List String) (pre : TFields)
    (n : String) (t : Ty) (post : TFields) (ms : JMembers) (r : VFields)
    (hpre : decodeFields path pre ms = .ok r)
    (hmiss : jLookup ms n = none) (hnopt : isOptTy t = false) :
    decodeJ path (.record (tfApp pre (.cons n t post))) (.jobj ms) =
      .error (.missingField (path ++ [n])) := by
  have h := decodeFields_append_err path pre (.cons n t post) ms
    (.missingField (path ++ [n])) r hpre
    (decodeFields_head_missing path n t post ms hmiss hnopt)
  simp only [decodeJ, h, mapE]

/- ### Staging facts used by the naming claim -/

theorem write_schema_stages (content : String → List Char) (d : String)
    (name : String) (c : List Char) (fs : FS)
    (hres : resource_string content (name ++ ".fbs") = .ok c) :
    fsRead (((_write_schema content d name) fs).2) (d, name ++ ".fbs") = some c := by
  simp only [_write_schema, mBind, liftE, mWrite, hres]
  exact fsRead_write_hit fs (d, name ++ ".fbs") c

/- ### Concrete fixtures used by the witnesses: the specification's worked
example record, a record with count and a tagged-union status field -/

def Tvar : TVariants :=
  .cons "ok" (.scalar .boolTy) (.cons "err" (.scalar .strTy) .nil)

def Tex : Ty :=
  .record (.cons "count" (.scalar .intTy) (.cons "status" (.union Tvar) .nil))

def fldsEx : VFields :=
  .cons "count" (.vint 7) (.cons "status" (.vunion "ok" (.vbool true)) .nil)

def xex : Val := .vrec fldsEx

def contentEx : String → List Char := fun _ => []

def Tab : Ty :=
  .record (.cons "a" (.scalar .intTy) (.cons "b" (.scalar .intTy) .nil))

theorem wfT_Tex : wfT Tex = true := by
  simp [Tex, Tvar, wfT, wfFields, wfVariants, namesOfT, isOptTy]

theorem validB_Tex : validB Tex xex = true := by
  simp [Tex, Tvar, xex, fldsEx, validB, validFields, validUnion, validScalar]

/- ### The ten claims -/

/-- C1: for every typed record x valid under a wellformed schema variant, and a
correctly functioning external compiler stand-in pair (the decompiler inverts
the compiler), serializing x and then deserializing the produced blob returns
a record structurally equal to x, for the legacy etdump variant and for the
flatcc variant independently; the serialized blob is the compiler image of the
encoder's JSON text. -/
theorem C1_serialize_deserialize_roundtrip (content : String → List Char)
    (f g : List Char → List Char) (hfg : ∀ s, g (f s) = s) (T : Ty) (x : Val)
    (hw : wfT T = true) (hv : validB T x = true) (d d2 : String) (fs fs2 : FS) :
    (serialize_to_etdump content (flatcCompileStandin f) d x fs).1 =
        .ok (f (_serialize_from_etdump_to_json x)) ∧
      (deserialize_from_etdump content (flatcDecompileStandin g) d2 T
          (f (_serialize_from_etdump_to_json x)) fs2).1 = .ok x ∧
      (serialize_to_etdump_flatcc content (flatcCompileStandin f) d x fs).1 =
        .ok (f (_serialize_from_etdump_to_json x)) ∧
      (deserialize_from_etdump_flatcc content (flatcDecompileStandin g) d2 T
          (f (_serialize_from_etdump_to_json x)) fs2).1 = .ok x := by
  refine ⟨serialize_etdump_standin content f d x fs, ?_,
    serialize_flatcc_standin content f d x fs, ?_⟩
  · rw [deserialize_etdump_standin, hfg]
    exact deserialize_json_roundtrip T x hw hv
  · rw [deserialize_flatcc_standin, hfg]
    exact deserialize_json_flatcc_roundtrip T x hw hv

theorem C1_serialize_deserialize_roundtrip_witness :
    wfT Tex = true ∧ validB Tex xex = true ∧
      ((serialize_to_etdump contentEx (flatcCompileStandin id) "w" xex []).1 =
          .ok (id (_serialize_from_etdump_to_json xex)) ∧
        (deserialize_from_etdump contentEx (flatcDecompileStandin id) "w2" Tex
            (id (_serialize_from_etdump_to_json xex)) []).1 = .ok xex ∧
        (serialize_to_etdump_flatcc contentEx (flatcCompileStandin id) "w" xex []).1 =
          .ok (id (_serialize_from_etdump_to_json xex)) ∧
        (deserialize_from_etdump_flatcc contentEx (flatcDecompileStandin id) "w2" Tex
            (id (_serialize_from_etdump_to_json xex)) []).1 = .ok xex) :=
  ⟨wfT_Tex, validB_Tex,
    C1_serialize_deserialize_roundtrip contentEx id id (fun s => rfl) Tex xex
      wfT_Tex validB_Tex "w" "w2" [] []⟩

/-- C2: for every typed record x valid under a wellformed schema, decoding the
JSON text produced by encoding x, without involving the external compiler,
yields a record structurally equal to x, through the legacy json-to-etdump
path and through the flatcc json-to-etdump path independently. -/
theorem C2_decode_encode_roundtrip (T : Ty) (x : Val) (hw : wfT T = true)
    (hv : validB T x = true) :
    _deserialize_from_json_to_etdump T (_serialize_from_etdump_to_json x) = .ok x ∧
      _deserialize_from_json_to_etdump_flatcc T (_serialize_from_etdump_to_json x) =
        .ok x :=
  ⟨deserialize_json_roundtrip T x hw hv, deserialize_json_flatcc_roundtrip T x hw hv⟩

theorem C2_decode_encode_roundtrip_witness :
    wfT Tex = true ∧ validB Tex xex = true ∧
      (_deserialize_from_json_to_etdump Tex (_serialize_from_etdump_to_json xex) =
          .ok xex ∧
        _deserialize_from_json_to_etdump_flatcc Tex
            (_serialize_from_etdump_to_json xex) = .ok xex) :=
  ⟨wfT_Tex, validB_Tex, C2_decode_encode_roundtrip Tex xex wfT_Tex validB_Tex⟩

/-- C3: after any serialize or deserialize call of either variant, whatever the
staged compiler did and whether the call returned a value or an error, no file
remains under the temporary workspace directory of that call: every lookup
under the workspace directory in the resulting filesystem misses. -/
theorem C3_workspace_cleanup (content : String → List Char) (flatc : FlatcFn)
    (d : String) (T : Ty) (x : Val) (b : List Char) (fs : FS) (n : String) :
    fsRead ((serialize_to_etdump content flatc d x fs).2) (d, n) = none ∧
      fsRead ((deserialize_from_etdump content flatc d T b fs).2) (d, n) = none ∧
      fsRead ((serialize_to_etdump_flatcc content flatc d x fs).2) (d, n) = none ∧
      fsRead ((deserialize_from_etdump_flatcc content flatc d T b fs).2) (d, n) =
        none :=
  ⟨serialize_etdump_cleanup content flatc d x fs n,
    deserialize_etdump_cleanup content flatc d T b fs n,
    serialize_flatcc_cleanup content flatc d x fs n,
    deserialize_flatcc_cleanup content flatc d T b fs n⟩

/-- C4 counterexample: the staged schema text file is not named with the
documented .schema extension: right after the schema staging step the
workspace holds etdump_schema.fbs and holds nothing at etdump_schema.schema,
refuting the claimed naming convention. -/
theorem C4_naming_counterexample :
    fsRead (((_write_schema contentEx "w" ETDUMP_SCHEMA_NAME) []).2)
        ("w", "etdump_schema.schema") = none ∧
      fsRead (((_write_schema contentEx "w" ETDUMP_SCHEMA_NAME) []).2)
        ("w", "etdump_schema.fbs") = some (contentEx "etdump_schema.fbs") := by
  constructor <;> rfl

/-- C4 amended: the actual staging convention differs from the claimed one:
schema text files are staged under the name schema-name dot fbs; the JSON
payload of a serialize conversion is staged at schema-name dot json and the
compiler output is read back from schema-name dot etdp; a deserialize
conversion stages the binary payload at the fixed name schema.bin and reads
the decompiler output from the fixed name schema.json.  The probe compiler
succeeds exactly when handed those staged paths, and the conversion then
fails at the output read, exposing the output path in the error. -/
theorem C4_naming_amended (content : String → List Char) (d : String)
    (j a : List Char) (fs : FS) (ha : asciiEncode j = .ok a)
    (hfresh : ∀ n, fsRead fs (d, n) = none) :
    fsRead (((_write_schema content d ETDUMP_SCHEMA_NAME) fs).2)
        (d, ETDUMP_SCHEMA_NAME ++ ".fbs") =
        some (content (ETDUMP_SCHEMA_NAME ++ ".fbs")) ∧
      (_convert_to_flatbuffer content
          (checkedCompile (ETDUMP_SCHEMA_NAME ++ ".fbs")
            (ETDUMP_SCHEMA_NAME ++ ".json") a) d j fs).1 =
        .error (.fileNotFound (d, ETDUMP_SCHEMA_NAME ++ ".etdp")) ∧
      (_convert_to_flatcc content
          (checkedCompile (ETDUMP_FLATCC_SCHEMA_NAME ++ ".fbs")
            (ETDUMP_FLATCC_SCHEMA_NAME ++ ".json") a) d j fs).1 =
        .error (.fileNotFound (d, ETDUMP_FLATCC_SCHEMA_NAME ++ ".etdp")) ∧
      (_convert_from_flatbuffer content
          (checkedDecompile (ETDUMP_SCHEMA_NAME ++ ".fbs") j) d j fs).1 =
        .error (.fileNotFound (d, "schema.json")) ∧
      (_convert_from_flatcc content
          (checkedDecompile (ETDUMP_FLATCC_SCHEMA_NAME ++ ".fbs") j) d j fs).1 =
        .error (.fileNotFound (d, "schema.json")) :=
  ⟨write_schema_stages content d ETDUMP_SCHEMA_NAME _ fs (resource_etdump content),
    convert_to_flatbuffer_naming content d j a fs ha hfresh,
    convert_to_flatcc_naming content d j a fs ha hfresh,
    convert_from_flatbuffer_naming content d j fs hfresh,
    convert_from_flatcc_naming content d j fs hfresh⟩

theorem C4_naming_amended_witness :
    asciiEncode [] = .ok ([] : List Char) ∧
      (fsRead (((_write_schema contentEx "w" ETDUMP_SCHEMA_NAME) []).2)
          ("w", ETDUMP_SCHEMA_NAME ++ ".fbs") =
          some (contentEx (ETDUMP_SCHEMA_NAME ++ ".fbs")) ∧
        (_convert_to_flatbuffer contentEx
            (checkedCompile (ETDUMP_SCHEMA_NAME ++ ".fbs")
              (ETDUMP_SCHEMA_NAME ++ ".json") []) "w" [] []).1 =
          .error (.fileNotFound ("w", ETDUMP_SCHEMA_NAME ++ ".etdp")) ∧
        (_convert_to_flatcc contentEx
            (checkedCompile (ETDUMP_FLATCC_SCHEMA_NAME ++ ".fbs")
              (ETDUMP_FLATCC_SCHEMA_NAME ++ ".json") []) "w" [] []).1 =
          .error (.fileNotFound ("w", ETDUMP_FLATCC_SCHEMA_NAME ++ ".etdp")) ∧
        (_convert_from_flatbuffer contentEx
            (checkedDecompile (ETDUMP_SCHEMA_NAME ++ ".fbs") []) "w" [] []).1 =
          .error (.fileNotFound ("w", "schema.json")) ∧
        (_convert_from_flatcc contentEx
            (checkedDecompile (ETDUMP_FLATCC_SCHEMA_NAME ++ ".fbs") []) "w" [] []).1 =
          .error (.fileNotFound ("w", "schema.json"))) :=
  ⟨rfl, C4_naming_amended contentEx "w" [] [] [] rfl (fun n => rfl)⟩

/-- C5: the schema resource provider serves exactly the three packaged schema
resources: requesting any name outside the legacy record schema, the flatcc
record schema and the shared scalar-type schema fails with a resource-not-found
error carrying that name, while each of the three packaged names returns the
resource bytes. -/
theorem C5_resource_provider (content : String → List Char) (name : String)
    (h : ¬name = ETDUMP_SCHEMA_NAME ++ ".fbs" ∧
      ¬name = ETDUMP_FLATCC_SCHEMA_NAME ++ ".fbs" ∧
      ¬name = SCALAR_TYPE_SCHEMA_NAME ++ ".fbs") :
    resource_string content name = .error (.resourceNotFound name) ∧
      resource_string content (ETDUMP_SCHEMA_NAME ++ ".fbs") =
        .ok (content (ETDUMP_SCHEMA_NAME ++ ".fbs")) ∧
      resource_string content (ETDUMP_FLATCC_SCHEMA_NAME ++ ".fbs") =
        .ok (content (ETDUMP_FLATCC_SCHEMA_NAME ++ ".fbs")) ∧
      resource_string content (SCALAR_TYPE_SCHEMA_NAME ++ ".fbs") =
        .ok (content (SCALAR_TYPE_SCHEMA_NAME ++ ".fbs")) := by
  refine ⟨?_, resource_etdump content, resource_flatcc content, resource_scalar content⟩
  rw [resource_string, if_neg]
  intro hc
  rcases hc with hc | hc | hc
  · exact h.1 hc
  · exact h.2.1 hc
  · exact h.2.2 hc

theorem C5_resource_provider_witness :
    (¬"bogus" = ETDUMP_SCHEMA_NAME ++ ".fbs" ∧
      ¬"bogus" = ETDUMP_FLATCC_SCHEMA_NAME ++ ".fbs" ∧
      ¬"bogus" = SCALAR_TYPE_SCHEMA_NAME ++ ".fbs") ∧
      (resource_string contentEx "bogus" = .error (.resourceNotFound "bogus") ∧
        resource_string contentEx (ETDUMP_SCHEMA_NAME ++ ".fbs") =
          .ok (contentEx (ETDUMP_SCHEMA_NAME ++ ".fbs")) ∧
        resource_string contentEx (ETDUMP_FLATCC_SCHEMA_NAME ++ ".fbs") =
          .ok (contentEx (ETDUMP_FLATCC_SCHEMA_NAME ++ ".fbs")) ∧
        resource_string contentEx (SCALAR_TYPE_SCHEMA_NAME ++ ".fbs") =
          .ok (contentEx (SCALAR_TYPE_SCHEMA_NAME ++ ".fbs"))) :=
  ⟨by decide, C5_resource_provider contentEx "bogus" (by decide)⟩

/-- C6: encoding is deterministic and order-stable: the encoder is a pure
function of the typed record, so equal records yield byte-identical JSON text,
and the members of an encoded record object carry exactly the record's field
names in declaration order, never sorted. -/
theorem C6_encode_deterministic_order (x y : Val) (flds : VFields) (hxy : x = y) :
    _serialize_from_etdump_to_json x = _serialize_from_etdump_to_json y ∧
      encodeJ (.vrec flds) = .jobj (encodeFields flds) ∧
      memberNames (encodeFields flds) = vfieldNames flds :=
  ⟨by rw [hxy], rfl, encode_keys flds⟩

theorem C6_encode_deterministic_order_witness :
    xex = xex ∧
      (_serialize_from_etdump_to_json xex = _serialize_from_etdump_to_json xex ∧
        encodeJ (.vrec fldsEx) = .jobj (encodeFields fldsEx) ∧
        memberNames (encodeFields fldsEx) = vfieldNames fldsEx) :=
  ⟨rfl, C6_encode_deterministic_order xex xex fldsEx rfl⟩

/-- C7 counterexample: a JSON object omitting two required fields is reported
with the path of the first omitted field in declaration order only: decoding
the empty object against the record schema with required fields a then b fails
naming path a, and in particular does not fail naming the omitted required
path b, refuting the claim for the omitted path b. -/
theorem C7_missing_field_counterexample :
    jLookup JMembers.nil "b" = none ∧ isOptTy (.scalar .intTy) = false ∧
      decodeJ [] Tab (.jobj .nil) = .error (.missingField ["a"]) ∧
      ¬decodeJ [] Tab (.jobj .nil) = .error (.missingField ["b"]) := by
  have h1 : decodeJ [] Tab (.jobj .nil) = .error (.missingField ["a"]) := by
    have h := decodeFields_head_missing [] "a" (.scalar .intTy)
      (.cons "b" (.scalar .intTy) .nil) .nil rfl rfl
    simp only [Tab, decodeJ, h, mapE, List.nil_append]
  refine ⟨rfl, rfl, h1, ?_⟩
  rw [h1]
  simp

/-- C7 amended: the decoder reports the first missing required field in
declaration order: decoding a JSON object against a record schema whose
declared fields split as a prefix block that decodes successfully followed by
a required field absent from the object fails with a missing-field error
naming exactly that field's path, both through the legacy json-to-etdump path
and through the flatcc json-to-etdump path, for pretty-printed and for
minified JSON text alike. -/
theorem C7_missing_field_amended (pre : TFields) (n : String) (t : Ty)
    (post : TFields) (ms : JMembers) (r : VFields) (p : Bool)
    (hpre : decodeFields [] pre ms = .ok r) (hmiss : jLookup ms n = none)
    (hnopt : isOptTy t = false) :
    _deserialize_from_json_to_etdump (.record (tfApp pre (.cons n t post)))
        (renderV p 0 (.jobj ms)) = .error (.missingField [n]) ∧
      _deserialize_from_json_to_etdump_flatcc (.record (tfApp pre (.cons n t post)))
        (renderV p 0 (.jobj ms)) = .error (.missingField [n]) := by
  have h := decodeJ_record_first_missing [] pre n t post ms r hpre hmiss hnopt
  rw [List.nil_append] at h
  constructor
  · rw [_deserialize_from_json_to_etdump, jsonLoads_render]
    exact h
  · rw [_deserialize_from_json_to_etdump_flatcc, jsonLoads_render]
    exact h

theorem C7_missing_field_amended_witness :
    decodeFields [] (.cons "a" (.scalar .intTy) .nil)
        (JMembers.cons "a" (.jnum 1) .nil) = .ok (.cons "a" (.vint 1) .nil) ∧
      jLookup (JMembers.cons "a" (.jnum 1) .nil) "b" = none ∧
      isOptTy (.scalar .intTy) = false ∧
      (_deserialize_from_json_to_etdump
          (.record (tfApp (.cons "a" (.scalar .intTy) .nil)
            (.cons "b" (.scalar .intTy) .nil)))
          (renderV true 0 (.jobj (JMembers.cons "a" (.jnum 1) .nil))) =
          .error (.missingField ["b"]) ∧
        _deserialize_from_json_to_etdump_flatcc
            (.record (tfApp (.cons "a" (.scalar .intTy) .nil)
              (.cons "b" (.scalar .intTy) .nil)))
            (renderV true 0 (.jobj (JMembers.cons "a" (.jnum 1) .nil))) =
          .error (.missingField ["b"])) := by
  have hpre : decodeFields [] (.cons "a" (.scalar .intTy) .nil)
      (JMembers.cons "a" (.jnum 1) .nil) = .ok (.cons "a" (.vint 1) .nil) := by
    simp [decodeFields, decodeJ, decodeScalar, jLookup, bindE]
  refine ⟨hpre, rfl, rfl, ?_⟩
  exact C7_missing_field_amended (.cons "a" (.scalar .intTy) .nil) "b"
    (.scalar .intTy) .nil (JMembers.cons "a" (.jnum 1) .nil)
    (.cons "a" (.vint 1) .nil) true hpre rfl rfl

/-- C8: pretty-printing is cosmetic only: for every JSON document, parsing its
pretty-printed rendering and parsing its minified rendering recover the same
document, and for every typed record valid under a wellformed schema, decoding
the encoded JSON yields the same record whether the JSON text was emitted with
indentation or with all insignificant whitespace removed. -/
theorem C8_whitespace_cosmetic (p q : Bool) (T : Ty) (x : Val) (j : Jval)
    (hw : wfT T = true) (hv : validB T x = true) :
    jsonLoads (renderV p 0 j) = jsonLoads (renderV q 0 j) ∧
      _deserialize_from_json_to_etdump T (renderV p 0 (encodeJ x)) = .ok x ∧
      _deserialize_from_json_to_etdump T (renderV q 0 (encodeJ x)) = .ok x := by
  refine ⟨by rw [jsonLoads_render, jsonLoads_render], ?_, ?_⟩
  · rw [_deserialize_from_json_to_etdump, jsonLoads_render]
    exact decode_encode [] T x hw hv
  · rw [_deserialize_from_json_to_etdump, jsonLoads_render]
    exact decode_encode [] T x hw hv

theorem C8_whitespace_cosmetic_witness :
    wfT Tex = true ∧ validB Tex xex = true ∧
      (jsonLoads (renderV true 0 Jval.jnull) = jsonLoads (renderV false 0 Jval.jnull) ∧
        _deserialize_from_json_to_etdump Tex (renderV true 0 (encodeJ xex)) =
          .ok xex ∧
        _deserialize_from_json_to_etdump Tex (renderV false 0 (encodeJ xex)) =
          .ok xex) :=
  ⟨wfT_Tex, validB_Tex,
    C8_whitespace_cosmetic true false Tex xex Jval.jnull wfT_Tex validB_Tex⟩

/-- C9: the encoder's JSON text is pure ASCII for every typed record, so the
ascii encoding step performed when staging the JSON payload file succeeds and
returns the text unchanged, and with a functioning compiler stand-in both the
legacy and the flatcc serialize conversion proceed past the encoding step and
return the compiled payload. -/
theorem C9_ascii_safe (x : Val) (content : String → List Char)
    (f : List Char → List Char) (d : String) (fs : FS) :
    AsciiL (_serialize_from_etdump_to_json x) ∧
      asciiEncode (_serialize_from_etdump_to_json x) =
        .ok (_serialize_from_etdump_to_json x) ∧
      (_convert_to_flatbuffer content (flatcCompileStandin f) d
          (_serialize_from_etdump_to_json x) fs).1 =
        .ok (f (_serialize_from_etdump_to_json x)) ∧
      (_convert_to_flatcc content (flatcCompileStandin f) d
          (_serialize_from_etdump_to_json x) fs).1 =
        .ok (f (_serialize_from_etdump_to_json x)) :=
  ⟨renderV_ascii true 0 (encodeJ x), asciiEncode_json x,
    convert_to_flatbuffer_standin content f d _ _ fs (asciiEncode_json x),
    convert_to_flatcc_standin content f d _ _ fs (asciiEncode_json x)⟩

/-- C10: the tree-to-json encode step is one shared function for both schema
variants: with the same compiler stand-in, the legacy and the flatcc serialize
entry points return identical results, namely the compiler image of the one
shared encoder's JSON text, so structurally identical records produce
character-identical intermediate JSON on both paths. -/
theorem C10_shared_encoder (content : String → List Char)
    (f : List Char → List Char) (d : String) (x : Val) (fs : FS) :
    (serialize_to_etdump content (flatcCompileStandin f) d x fs).1 =
        (serialize_to_etdump_flatcc content (flatcCompileStandin f) d x fs).1 ∧
      (serialize_to_etdump content (flatcCompileStandin f) d x fs).1 =
        .ok (f (_serialize_from_etdump_to_json x)) := by
  rw [serialize_etdump_standin, serialize_flatcc_standin]
  exact ⟨rfl, rfl⟩

end EtdumpVerify
